import Mathlib

/-!
Verification of the boolean query-tree normalizer and iterator factory of
`src/storage/invertedindex/search/query_node.cpp`.

The C++ query-node class hierarchy is embedded as the inductive `QueryNode`;
each `OptimizeInPlaceInner` member function becomes a Lean function on the
node's (already normalized) child list, and the bottom-up traversal that the
header supplies (it is described in the design document but its code is not
among the visible sources) is `optimize`/`optimizeList`.  `CreateSearch`
becomes `createSearch`, with the external table catalog, column index reader
and scorer abstracted into `SearchEnv` and an explicit registration list.
Errors raised through `UnrecoverableError(msg)` are modelled as `.error msg`.
-/

namespace Infinity

/-- Type `QueryNodeType` from the source: the closed kind enumeration. -/
inductive QueryNodeType where
  | INVALID
  | TERM
  | AND
  | AND_NOT
  | OR
  | NOT
  | WAND
  | PHRASE
  | PREFIX_TERM
  | SUFFIX_TERM
  | SUBSTRING_TERM
deriving DecidableEq, Repr

/-- The opaque leaf kinds, which the design document groups together:
`PHRASE`, `PREFIX_TERM`, `SUFFIX_TERM`, `SUBSTRING_TERM`, `WAND`. -/
inductive OpaqueKind where
  | WAND
  | PHRASE
  | PREFIX_TERM
  | SUFFIX_TERM
  | SUBSTRING_TERM
deriving DecidableEq, Repr

def OpaqueKind.toType : OpaqueKind → QueryNodeType
  | .WAND => .WAND
  | .PHRASE => .PHRASE
  | .PREFIX_TERM => .PREFIX_TERM
  | .SUFFIX_TERM => .SUFFIX_TERM
  | .SUBSTRING_TERM => .SUBSTRING_TERM

/-- The query-node tree.  Every node carries a weight (default 1.0 in the
source; weights are never computed with, only stored and reset, so `Rat`
stands in for the C++ `float`).  `term` carries the column name and the term
string; `atom` covers the five opaque leaf kinds with their payload; the four
composite constructors own an ordered child list, as the `MultiQueryNode`
subclasses do. -/
inductive QueryNode where
  | term (weight : Rat) (column : String) (tstr : String)
  | atom (weight : Rat) (okind : OpaqueKind) (payload : String)
  | and (weight : Rat) (children : List QueryNode)
  | or (weight : Rat) (children : List QueryNode)
  | not (weight : Rat) (children : List QueryNode)
  | and_not (weight : Rat) (children : List QueryNode)

/-- Kind accessor, the source member function GetType(). -/
def QueryNode.kind : QueryNode → QueryNodeType
  | .term .. => .TERM
  | .atom _ k _ => k.toType
  | .and .. => .AND
  | .or .. => .OR
  | .not .. => .NOT
  | .and_not .. => .AND_NOT

/-- Child-list accessor, the source member field children_ (empty for leaves). -/
def QueryNode.children : QueryNode → List QueryNode
  | .term .. | .atom .. => []
  | .and _ cs | .or _ cs | .not _ cs | .and_not _ cs => cs

def QueryNode.weight : QueryNode → Rat
  | .term w .. | .atom w .. | .and w _ | .or w _ | .not w _ | .and_not w _ => w

def QueryNode.isComposite : QueryNode → Bool
  | .and .. | .or .. | .not .. | .and_not .. => true
  | .term .. | .atom .. => false

def QueryNode.isNot : QueryNode → Bool
  | .not .. => true
  | _ => false

def QueryNode.isAnd : QueryNode → Bool
  | .and .. => true
  | _ => false

def QueryNode.isOpaque : QueryNode → Bool
  | .atom .. => true
  | _ => false

/-! ## The per-kind rewrite rules (`OptimizeInPlaceInner`)

Each C++ `OptimizeInPlaceInner` walks `children_` once with a `switch` on the
child's type, building one or two lists, and then assembles the replacement
node.  The loops become the `collect` functions below; iteration order (and
hence output order) is preserved, and the first child hitting the `default`
arm aborts with `UnrecoverableError`, here `.error`. -/

/-- The child loop of `NotQueryNode::OptimizeInPlaceInner` (query_node.cpp
lines 46-66): `TERM`, `AND`, `AND_NOT` children are kept verbatim, an `OR`
child has its children spliced in, anything else is an unexpected case. -/
def NotQueryNode.collect : List QueryNode → Except String (List QueryNode)
  | [] => .ok []
  | c :: rest =>
    match NotQueryNode.collect rest with
    | .error e => .error e
    | .ok r =>
      match c with
      | .term .. | .and .. | .and_not .. => .ok (c :: r)
      | .or _ gs => .ok (gs ++ r)
      | _ => .error "OptimizeInPlaceInner: Unexpected case!"

/-- Function NotQueryNode::OptimizeInPlaceInner (query_node.cpp lines 41-70). -/
def NotQueryNode.OptimizeInPlaceInner (children : List QueryNode) :
    Except String QueryNode :=
  if children.isEmpty then
    .error "Invalid query statement: NotQueryNode node should have at least 1 child"
  else
    match NotQueryNode.collect children with
    | .error e => .error e
    | .ok l => .ok (.not 1 l)

/-- How an `AND_NOT` child's first child enters `and_list` in the `AND`
rewrite (query_node.cpp lines 115-122): flattened into its children when it
is itself an `AND`, kept whole otherwise. -/
def andNotFirstFlatten : QueryNode → List QueryNode
  | .and _ fgs => fgs
  | f => [f]

/-- The child loop of `AndQueryNode::OptimizeInPlaceInner` (query_node.cpp
lines 92-133), producing `(and_list, not_list)`: an `AND` child is flattened
into `and_list`; `TERM` and `OR` children are appended to `and_list`; a `NOT`
child has its children spliced into `not_list`; an `AND_NOT` child sends its
first child to `and_list` (flattened when that first child is an `AND`) and
the remaining children to `not_list`.  The source reads the `AND_NOT` child
through `children_.front()`, which is undefined behaviour on an empty vector;
that unreachable situation is modelled as an error. -/
def AndQueryNode.collect : List QueryNode → Except String (List QueryNode × List QueryNode)
  | [] => .ok ([], [])
  | c :: rest =>
    match AndQueryNode.collect rest with
    | .error e => .error e
    | .ok (al, nl) =>
      match c with
      | .and _ gs => .ok (gs ++ al, nl)
      | .term .. | .or .. => .ok (c :: al, nl)
      | .not _ gs => .ok (al, gs ++ nl)
      | .and_not _ [] => .error "AndNotQueryNode has no children (undefined behaviour in source)"
      | .and_not _ (f :: r) => .ok (andNotFirstFlatten f ++ al, r ++ nl)
      | _ => .error "OptimizeInPlaceInner: Unexpected case!"

/-- Function AndQueryNode::OptimizeInPlaceInner (query_node.cpp lines 85-161). -/
def AndQueryNode.OptimizeInPlaceInner (children : List QueryNode) :
    Except String QueryNode :=
  if children.length < 2 then
    .error "Invalid query statement: AndQueryNode node should have at least 2 children"
  else
    match AndQueryNode.collect children with
    | .error e => .error e
    | .ok (and_list, not_list) =>
      if and_list.isEmpty then
        .ok (.not 1 not_list)
      else if not_list.isEmpty then
        .ok (.and 1 and_list)
      else
        match and_list with
        | [x] => .ok (.and_not 1 (x :: not_list))
        | _ => .ok (.and_not 1 (.and 1 and_list :: not_list))

/-- The child loop of `OrQueryNode::OptimizeInPlaceInner` (query_node.cpp
lines 182-204): an `OR` child is flattened into `or_list`; `TERM`, `AND`,
`AND_NOT` children are appended to `or_list`; a `NOT` child is appended
(whole) to `not_list`. -/
def OrQueryNode.collect : List QueryNode → Except String (List QueryNode × List QueryNode)
  | [] => .ok ([], [])
  | c :: rest =>
    match OrQueryNode.collect rest with
    | .error e => .error e
    | .ok (ol, nl) =>
      match c with
      | .or _ gs => .ok (gs ++ ol, nl)
      | .term .. | .and .. | .and_not .. => .ok (c :: ol, nl)
      | .not .. => .ok (ol, c :: nl)
      | _ => .error "OptimizeInPlaceInner: Unexpected case!"

/-- The De Morgan collapse in the `or_list`-empty branch of
`OrQueryNode::OptimizeInPlaceInner` (query_node.cpp lines 211-221): a `NOT`
child with a single grandchild becomes that grandchild, otherwise a fresh
`OR` of its grandchildren.  Every element of `not_list` is a `NOT` node by
construction; the fall-through arm is unreachable (the source would
`static_cast` unconditionally). -/
def OrQueryNode.collapseNot : QueryNode → QueryNode
  | .not _ [g] => g
  | .not _ gs => .or 1 gs
  | q => q

/-- Function OrQueryNode::OptimizeInPlaceInner (query_node.cpp lines 175-233). -/
def OrQueryNode.OptimizeInPlaceInner (children : List QueryNode) :
    Except String QueryNode :=
  if children.length < 2 then
    .error "Invalid query statement: OrQueryNode node should have at least 2 children"
  else
    match OrQueryNode.collect children with
    | .error e => .error e
    | .ok (or_list, not_list) =>
      if or_list.isEmpty then
        .ok (.not 1 [.and 1 (not_list.map OrQueryNode.collapseNot)])
      else if not_list.isEmpty then
        .ok (.or 1 or_list)
      else
        .error "Invalid query statement: OrQueryNode node should not have both or list and not list"

/-- Function AndNotQueryNode::OptimizeInPlaceInner (query_node.cpp lines 238-241):
`AND_NOT` never comes from the parser, its presence is fatal. -/
def AndNotQueryNode.OptimizeInPlaceInner (_children : List QueryNode) :
    Except String QueryNode :=
  .error "OptimizeInPlaceInner: Unexpected case! AndNotQueryNode should not exist in parser output"

mutual

/-- Modelled from the spec: the bottom-up traversal driver of the normalizer
is not among the visible sources (only the per-kind `OptimizeInPlaceInner`
bodies are).  Per the design document, "each node first normalizes all its
children, then applies its own rewrite rule", leaves are atoms passed through
unchanged, and the result of the rewrite (including a root-level `NOT`) is
returned to the caller. -/
def optimize : QueryNode → Except String QueryNode
  | .term w c s => .ok (.term w c s)
  | .atom w k p => .ok (.atom w k p)
  | .and _ cs =>
    match optimizeList cs with
    | .error e => .error e
    | .ok cs2 => AndQueryNode.OptimizeInPlaceInner cs2
  | .or _ cs =>
    match optimizeList cs with
    | .error e => .error e
    | .ok cs2 => OrQueryNode.OptimizeInPlaceInner cs2
  | .not _ cs =>
    match optimizeList cs with
    | .error e => .error e
    | .ok cs2 => NotQueryNode.OptimizeInPlaceInner cs2
  | .and_not _ cs =>
    match optimizeList cs with
    | .error e => .error e
    | .ok cs2 => AndNotQueryNode.OptimizeInPlaceInner cs2

def optimizeList : List QueryNode → Except String (List QueryNode)
  | [] => .ok []
  | c :: cs =>
    match optimize c with
    | .error e => .error e
    | .ok c2 =>
      match optimizeList cs with
      | .error e => .error e
      | .ok cs2 => .ok (c2 :: cs2)

end

/-! ## Boolean semantics

The oracle interpretation from the design document: `AND` is conjunction over
the children, `OR` disjunction, `NOT(c₁…cₙ)` is `¬(c₁ ∨ … ∨ cₙ)` (for a
single child this is ordinary negation, and it is exactly the reading under
which the `NOT` rewrite's flat subtrahend list is sound), and
`AND_NOT(a; b₁…bₙ)` is `a ∧ ¬b₁ ∧ … ∧ ¬bₙ`.  `σ` assigns a boolean to every
`TERM` (by column and term string), `τ` to every opaque leaf. -/

mutual

def eval (σ : String → String → Bool) (τ : OpaqueKind → String → Bool) :
    QueryNode → Bool
  | .term _ c s => σ c s
  | .atom _ k p => τ k p
  | .and _ cs => evalAll σ τ cs
  | .or _ cs => evalAny σ τ cs
  | .not _ cs => !(evalAny σ τ cs)
  | .and_not _ [] => false
  | .and_not _ (f :: r) => eval σ τ f && !(evalAny σ τ r)

def evalAll (σ : String → String → Bool) (τ : OpaqueKind → String → Bool) :
    List QueryNode → Bool
  | [] => true
  | c :: cs => eval σ τ c && evalAll σ τ cs

def evalAny (σ : String → String → Bool) (τ : OpaqueKind → String → Bool) :
    List QueryNode → Bool
  | [] => false
  | c :: cs => eval σ τ c || evalAny σ τ cs

end

/-! ## Shape invariants -/

/-- Child kinds an `AND` node actually carries after normalization:
everything except `NOT` (and except leaves of opaque kind, which the rewriter
rejects outright). -/
def andChildKindOk (c : QueryNode) : Bool :=
  match c with
  | .term .. | .or .. | .and .. | .and_not .. => true
  | _ => false

/-- Child kinds a normalized `OR` or `NOT` node carries, and the kinds of the
subtrahend (second and later) children of a normalized `AND_NOT`:
`TERM`, `AND`, `AND_NOT`. -/
def notChildKindOk (c : QueryNode) : Bool :=
  match c with
  | .term .. | .and .. | .and_not .. => true
  | _ => false

/-- Kinds the first (positive) child of a normalized `AND_NOT` can have:
`TERM`, `AND`, `OR`, `AND_NOT`. -/
def andNotFirstKindOk (c : QueryNode) : Bool :=
  match c with
  | .term .. | .and .. | .or .. | .and_not .. => true
  | _ => false

mutual

/-- The canonical-form invariant the code actually establishes on every node
returned by the normalizer (proved below): composite nodes are fabricated
with weight 1; `AND` has ≥ 2 children, all of kind `TERM`/`OR`/`AND`/`AND_NOT`;
`OR` has ≥ 2 children of kind `TERM`/`AND`/`AND_NOT`; `NOT` has ≥ 1 children
of kind `TERM`/`AND`/`AND_NOT`; `AND_NOT` has ≥ 2 children, the first of kind
`TERM`/`AND`/`OR`/`AND_NOT` and the rest of kind `TERM`/`AND`/`AND_NOT`.
In particular `NOT` never occurs below the root and no `OR` contains an `OR`,
but an `AND` may contain an `AND` and an `AND_NOT` may sit directly under an
`AND_NOT` or under a `NOT`. -/
def canon : QueryNode → Bool
  | .term .. => true
  | .atom .. => true
  | .and w cs =>
    w == 1 && decide (2 ≤ cs.length) && cs.all andChildKindOk && canonList cs
  | .or w cs =>
    w == 1 && decide (2 ≤ cs.length) && cs.all notChildKindOk && canonList cs
  | .not w cs =>
    w == 1 && decide (1 ≤ cs.length) && cs.all notChildKindOk && canonList cs
  | .and_not w cs =>
    w == 1 && decide (2 ≤ cs.length) &&
      (match cs with
       | [] => false
       | f :: r => andNotFirstKindOk f && r.all notChildKindOk) &&
    canonList cs

def canonList : List QueryNode → Bool
  | [] => true
  | c :: cs => canon c && canonList cs

end

/-- Child kinds the specification's §3 table permits under an `AND`:
`TERM`, `OR`, opaque leaves. -/
def specAndChildOk (c : QueryNode) : Bool :=
  match c with
  | .term .. | .or .. | .atom .. => true
  | _ => false

/-- Child kinds the specification's §3 table permits under an `OR` or a
`NOT`: `TERM`, `AND`, `AND_NOT`, opaque leaves. -/
def specOrChildOk (c : QueryNode) : Bool :=
  match c with
  | .term .. | .and .. | .and_not .. | .atom .. => true
  | _ => false

/-- Child kinds the specification's §3 table permits inside an `AND_NOT`
(first child and subtrahends alike): `TERM`, `AND`, `OR`, opaque leaves. -/
def specAndNotChildOk (c : QueryNode) : Bool :=
  match c with
  | .term .. | .and .. | .or .. | .atom .. => true
  | _ => false

mutual

/-- The canonical-form table exactly as the specification's §3 states it
(per-kind permitted child kinds and minimum arities).  This is the claimed
invariant, written from the spec's words, to be compared with what the code
establishes. -/
def specCanon : QueryNode → Bool
  | .term .. => true
  | .atom .. => true
  | .and _ cs => decide (2 ≤ cs.length) && cs.all specAndChildOk && specCanonList cs
  | .or _ cs => decide (2 ≤ cs.length) && cs.all specOrChildOk && specCanonList cs
  | .not _ cs => decide (1 ≤ cs.length) && cs.all specOrChildOk && specCanonList cs
  | .and_not _ cs =>
    decide (2 ≤ cs.length) && cs.all specAndNotChildOk && specCanonList cs

def specCanonList : List QueryNode → Bool
  | [] => true
  | c :: cs => specCanon c && specCanonList cs

end

/-- The `and_list`/`not_list` partition of the `AND` rewrite, written from
the specification's words (§4.2 / claim C5): an `AND` child is flattened into
`and_list`; `TERM` and `OR` children append to `and_list`; a `NOT` child's
children are spliced into `not_list`; an `AND_NOT` child contributes its
first child to `and_list` (flattening it when that first child is itself an
`AND`) and its remaining children to `not_list`.  Kinds outside the table
contribute nothing (the claim presumes normalized children). -/
def specAndPart : List QueryNode → List QueryNode × List QueryNode
  | [] => ([], [])
  | c :: rest =>
    let p := specAndPart rest
    match c with
    | .and _ gs => (gs ++ p.1, p.2)
    | .term .. | .or .. => (c :: p.1, p.2)
    | .not _ gs => (p.1, gs ++ p.2)
    | .and_not _ [] => p
    | .and_not _ (f :: r) =>
      match f with
      | .and _ fgs => (fgs ++ p.1, r ++ p.2)
      | _ => (f :: p.1, r ++ p.2)
    | _ => p

/-- "and_list collapsed": the sole element if the list has size 1, otherwise
a fresh `AND` of the list in order with weight 1.0 (claim C5's words). -/
def specCollapseAndList : List QueryNode → QueryNode
  | [x] => x
  | l => .and 1 l

mutual

/-- No `AND_NOT` node anywhere in the tree. -/
def andNotFree : QueryNode → Bool
  | .term .. => true
  | .atom .. => true
  | .and _ cs | .or _ cs | .not _ cs => andNotFreeList cs
  | .and_not .. => false

def andNotFreeList : List QueryNode → Bool
  | [] => true
  | c :: cs => andNotFree c && andNotFreeList cs

end

mutual

/-- No `AND` node anywhere in the tree has a direct `AND` child. -/
def andAndFree : QueryNode → Bool
  | .term .. => true
  | .atom .. => true
  | .and _ cs => cs.all (fun c => !c.isAnd) && andAndFreeList cs
  | .or _ cs | .not _ cs | .and_not _ cs => andAndFreeList cs

def andAndFreeList : List QueryNode → Bool
  | [] => true
  | c :: cs => andAndFree c && andAndFreeList cs

end

mutual

/-- No composite node anywhere in the tree has an opaque-leaf child (an
opaque leaf may only be the root). -/
def atomChildFree : QueryNode → Bool
  | .term .. => true
  | .atom .. => true
  | .and _ cs | .or _ cs | .not _ cs | .and_not _ cs =>
    cs.all (fun c => !c.isOpaque) && atomChildFreeList cs

def atomChildFreeList : List QueryNode → Bool
  | [] => true
  | c :: cs => atomChildFree c && atomChildFreeList cs

end

/-! ## The iterator factory (`CreateSearch`)

The external collaborators are abstracted: the table catalog is a total
column-name → column-id map, `IndexReader::GetColumnIndexReader` either has a
reader for a column id or not, and `ColumnIndexReader::Lookup` either finds a
posting iterator (identified by a number) for a term or not.  The scorer is
modelled as the ordered list of `AddDocIterator(iter, column_id)` calls it has
received. -/

structure SearchEnv where
  columnIdByName : String → Nat
  hasColumnIndexReader : Nat → Bool
  lookup : Nat → String → Option Nat

/-- The document-iterator tree built by `CreateSearch`: a `TermDocIterator`
wrapping a posting iterator for a column, or an `AndIterator` /
`AndNotIterator` / `OrIterator` over sub-iterators. -/
inductive DocIterator where
  | termDoc (posting : Nat) (column : Nat)
  | andIter (subs : List DocIterator)
  | andNotIter (subs : List DocIterator)
  | orIter (subs : List DocIterator)

/-- One scorer registration: the term-doc iterator and the column id it was
registered under. -/
abbrev Registration := DocIterator × Nat

/-- Function TermQueryNode::CreateSearch (query_node.cpp lines 245-257): resolve the
column, get its index reader, look the term up; on failure contribute no
iterator, on success wrap the posting iterator and register it with the
scorer. -/
def TermQueryNode.CreateSearch (env : SearchEnv) (column tstr : String)
    (regs : List Registration) : Option DocIterator × List Registration :=
  let column_id := env.columnIdByName column
  if !env.hasColumnIndexReader column_id then (none, regs)
  else
    match env.lookup column_id tstr with
    | none => (none, regs)
    | some posting =>
      let search := DocIterator.termDoc posting column_id
      (some search, regs ++ [(search, column_id)])

mutual

/-- Function CreateSearch over the query-node tree (query_node.cpp lines 245-325),
threading the scorer's registration list.  `NOT` reaching the factory is the
fatal `InvalidNormalization` error; an `AND_NOT` whose child vector is empty
would dereference `children_.front()` out of bounds (unreachable for
normalized trees) and is modelled as an error; the opaque leaves' factories
are not among the visible sources and are likewise modelled as an error (they
are excluded by hypothesis below). -/
def createSearch (env : SearchEnv) :
    QueryNode → List Registration → Except String (Option DocIterator × List Registration)
  | .term _ c s, regs => .ok (TermQueryNode.CreateSearch env c s regs)
  | .atom .., _ => .error "opaque-leaf CreateSearch is outside the visible sources"
  | .and _ cs, regs =>
    match createSearchList env cs regs with
    | .error e => .error e
    | .ok (sub_doc_iters, regs2) =>
      match sub_doc_iters with
      | [] => .ok (none, regs2)
      | [x] => .ok (some x, regs2)
      | l => .ok (some (.andIter l), regs2)
  | .or _ cs, regs =>
    match createSearchList env cs regs with
    | .error e => .error e
    | .ok (sub_doc_iters, regs2) =>
      match sub_doc_iters with
      | [] => .ok (none, regs2)
      | [x] => .ok (some x, regs2)
      | l => .ok (some (.orIter l), regs2)
  | .not .., _ => .error "NOT query node should be optimized into AND_NOT query node"
  | .and_not _ [], _ => .error "AndNotQueryNode has no children (undefined behaviour in source)"
  | .and_not _ (f :: r), regs =>
    match createSearch env f regs with
    | .error e => .error e
    | .ok (first_iter, regs1) =>
      match first_iter with
      | none => .ok (none, regs1)
      | some fi =>
        match createSearchList env r regs1 with
        | .error e => .error e
        | .ok (rest_iters, regs2) =>
          match rest_iters with
          | [] => .ok (some fi, regs2)
          | l => .ok (some (.andNotIter (fi :: l)), regs2)

/-- The child loops of the composite `CreateSearch` bodies: build each
child's iterator in order, dropping absent ones. -/
def createSearchList (env : SearchEnv) :
    List QueryNode → List Registration → Except String (List DocIterator × List Registration)
  | [], regs => .ok ([], regs)
  | c :: cs, regs =>
    match createSearch env c regs with
    | .error e => .error e
    | .ok (o, regs1) =>
      match createSearchList env cs regs1 with
      | .error e => .error e
      | .ok (l, regs2) =>
        match o with
        | none => .ok (l, regs2)
        | some i => .ok (i :: l, regs2)

end

mutual

/-- The trees the factory can process: no `NOT`, no opaque leaves, and every
`AND_NOT` non-empty (its first child is dereferenced unconditionally).
Every §3-canonical `NOT`-free tree satisfies this. -/
def factoryOk : QueryNode → Bool
  | .term .. => true
  | .atom .. => false
  | .and _ cs | .or _ cs => factoryOkList cs
  | .not .. => false
  | .and_not _ [] => false
  | .and_not _ cs => factoryOkList cs

def factoryOkList : List QueryNode → Bool
  | [] => true
  | c :: cs => factoryOk c && factoryOkList cs

end

mutual

/-- The pure denotation of the factory: the iterator `createSearch` returns,
computed without threading the scorer. -/
def buildIter (env : SearchEnv) : QueryNode → Option DocIterator
  | .term _ c s => (TermQueryNode.CreateSearch env c s []).1
  | .atom .. => none
  | .and _ cs =>
    match buildIterList env cs with
    | [] => none
    | [x] => some x
    | l => some (.andIter l)
  | .or _ cs =>
    match buildIterList env cs with
    | [] => none
    | [x] => some x
    | l => some (.orIter l)
  | .not .. => none
  | .and_not _ [] => none
  | .and_not _ (f :: r) =>
    match buildIter env f with
    | none => none
    | some fi =>
      match buildIterList env r with
      | [] => some fi
      | l => some (.andNotIter (fi :: l))

def buildIterList (env : SearchEnv) : List QueryNode → List DocIterator
  | [] => []
  | c :: cs =>
    match buildIter env c with
    | none => buildIterList env cs
    | some i => i :: buildIterList env cs

end

/-- Whether a `TERM` leaf resolves: its column has an index reader and the
term lookup finds a posting iterator. -/
def termResolves (env : SearchEnv) (column tstr : String) : Bool :=
  env.hasColumnIndexReader (env.columnIdByName column) &&
    (env.lookup (env.columnIdByName column) tstr).isSome

/-- The registration a resolving `TERM` leaf performs. -/
def termRegistration (env : SearchEnv) (column tstr : String) : List Registration :=
  let column_id := env.columnIdByName column
  match env.lookup column_id tstr with
  | none => []
  | some posting => [(DocIterator.termDoc posting column_id, column_id)]

mutual

/-- Claim C7's absence criterion, written from its words: every relevant
`TERM` leaf below the node resolves to absent, where for an `AND_NOT` only
the first (positive) child is relevant. -/
def relevantLeavesAbsent (env : SearchEnv) : QueryNode → Bool
  | .term _ c s => !termResolves env c s
  | .atom .. => true
  | .and _ cs | .or _ cs | .not _ cs => relevantLeavesAbsentList env cs
  | .and_not _ [] => true
  | .and_not _ (f :: _) => relevantLeavesAbsent env f

def relevantLeavesAbsentList (env : SearchEnv) : List QueryNode → Bool
  | [] => true
  | c :: cs => relevantLeavesAbsent env c && relevantLeavesAbsentList env cs

end

mutual

/-- Claim C8's registration sequence, written from its words: the
left-to-right in-order traversal of exactly those `TERM` leaves whose column
and term lookups succeed, over the whole tree. -/
def claimSurvivors (env : SearchEnv) : QueryNode → List Registration
  | .term _ c s => if termResolves env c s then termRegistration env c s else []
  | .atom .. => []
  | .and _ cs | .or _ cs | .not _ cs | .and_not _ cs => claimSurvivorsList env cs

def claimSurvivorsList (env : SearchEnv) : List QueryNode → List Registration
  | [] => []
  | c :: cs => claimSurvivors env c ++ claimSurvivorsList env cs

end

mutual

/-- The registration sequence `createSearch` actually produces (proved
below): the left-to-right in-order traversal of the visited resolving `TERM`
leaves — the subtrahend children of an `AND_NOT` whose positive side builds
to absent are never visited, so their leaves never register. -/
def survivors (env : SearchEnv) : QueryNode → List Registration
  | .term _ c s => if termResolves env c s then termRegistration env c s else []
  | .atom .. => []
  | .and _ cs | .or _ cs | .not _ cs => survivorsList env cs
  | .and_not _ [] => []
  | .and_not _ (f :: r) =>
    match buildIter env f with
    | none => survivors env f
    | some _ => survivors env f ++ survivorsList env r

def survivorsList (env : SearchEnv) : List QueryNode → List Registration
  | [] => []
  | c :: cs => survivors env c ++ survivorsList env cs

end

/-! ## The diagnostic printer (`PrintTree`) -/

/-- Function QueryNodeTypeToString (query_node.cpp lines 329-354). -/
def QueryNodeTypeToString : QueryNodeType → String
  | .INVALID => "INVALID"
  | .TERM => "TERM"
  | .AND => "AND"
  | .AND_NOT => "AND_NOT"
  | .OR => "OR"
  | .NOT => "NOT"
  | .WAND => "WAND"
  | .PHRASE => "PHRASE"
  | .PREFIX_TERM => "PREFIX_TERM"
  | .SUFFIX_TERM => "SUFFIX_TERM"
  | .SUBSTRING_TERM => "SUBSTRING_TERM"

/-- The weight as rendered into the stream.  The C++ stream insertion of a
`float` is abstracted by `Rat`'s string rendering; only determinism and the
surrounding structure matter for the claims below. -/
def weightString (w : Rat) : String :=
  if w.den = 1 then toString w.num else toString w.num ++ "/" ++ toString w.den

mutual

/-- Functions TermQueryNode::PrintTree and MultiQueryNode::PrintTree
(query_node.cpp lines 356-378), with the out-of-bounds `children_.back()`
access of a composite without children modelled as `none`.  A composite node
prints a header line (kind, weight, children count), then hands each child to
`printChildren`.  The opaque-leaf `PrintTree` bodies are not among the
visible sources; modelled from the spec: each line prints the node kind name
and its weight, leaves carrying their payload (rendered here like a term
line). -/
def printTree : QueryNode → String → Bool → Option String
  | .term w c s, pre, is_final =>
    some (pre ++ (if is_final then "└──" else "├──") ++ QueryNodeTypeToString .TERM ++
      " (weight: " ++ weightString w ++ ")" ++ " (column: " ++ c ++ ")" ++
      " (term: " ++ s ++ ")" ++ "\n")
  | .atom w k p, pre, is_final =>
    some (pre ++ (if is_final then "└──" else "├──") ++ QueryNodeTypeToString k.toType ++
      " (weight: " ++ weightString w ++ ")" ++ " (payload: " ++ p ++ ")" ++ "\n")
  | .and w cs, pre, is_final =>
    match printChildren cs (pre ++ (if is_final then "    " else "│   ")) with
    | none => none
    | some body =>
      some (pre ++ (if is_final then "└──" else "├──") ++ QueryNodeTypeToString .AND ++
        " (weight: " ++ weightString w ++ ")" ++ " (children count: " ++
        toString cs.length ++ ")" ++ "\n" ++ body)
  | .or w cs, pre, is_final =>
    match printChildren cs (pre ++ (if is_final then "    " else "│   ")) with
    | none => none
    | some body =>
      some (pre ++ (if is_final then "└──" else "├──") ++ QueryNodeTypeToString .OR ++
        " (weight: " ++ weightString w ++ ")" ++ " (children count: " ++
        toString cs.length ++ ")" ++ "\n" ++ body)
  | .not w cs, pre, is_final =>
    match printChildren cs (pre ++ (if is_final then "    " else "│   ")) with
    | none => none
    | some body =>
      some (pre ++ (if is_final then "└──" else "├──") ++ QueryNodeTypeToString .NOT ++
        " (weight: " ++ weightString w ++ ")" ++ " (children count: " ++
        toString cs.length ++ ")" ++ "\n" ++ body)
  | .and_not w cs, pre, is_final =>
    match printChildren cs (pre ++ (if is_final then "    " else "│   ")) with
    | none => none
    | some body =>
      some (pre ++ (if is_final then "└──" else "├──") ++ QueryNodeTypeToString .AND_NOT ++
        " (weight: " ++ weightString w ++ ")" ++ " (children count: " ++
        toString cs.length ++ ")" ++ "\n" ++ body)

/-- The child loop of `MultiQueryNode::PrintTree`: children at indices
`0 … n-2` with `is_final = false`, then the last child with
`is_final = true`; with no children, `children_.back()` is out of bounds. -/
def printChildren : List QueryNode → String → Option String
  | [], _ => none
  | [c], pre => printTree c pre true
  | c :: c2 :: rest, pre =>
    match printTree c pre false with
    | none => none
    | some s1 =>
      match printChildren (c2 :: rest) pre with
      | none => none
      | some s2 => some (s1 ++ s2)

end

mutual

/-- Every composite node in the tree has at least one child (the printer's
safe domain below the root). -/
def subtreeNonEmpty : QueryNode → Bool
  | .term .. => true
  | .atom .. => true
  | .and _ cs | .or _ cs | .not _ cs | .and_not _ cs =>
    !cs.isEmpty && subtreeNonEmptyList cs

def subtreeNonEmptyList : List QueryNode → Bool
  | [] => true
  | c :: cs => subtreeNonEmpty c && subtreeNonEmptyList cs

end

/-! ## Helper lemmas -/

theorem sizeOf_lt_of_mem_children {c t : QueryNode} (h : c ∈ t.children) :
    sizeOf c < sizeOf t := by
  cases t with
  | term w a b => simp [QueryNode.children] at h
  | atom w k p => simp [QueryNode.children] at h
  | and w cs =>
    have h2 := List.sizeOf_lt_of_mem (by simpa [QueryNode.children] using h)
    simp only [QueryNode.and.sizeOf_spec]
    omega
  | or w cs =>
    have h2 := List.sizeOf_lt_of_mem (by simpa [QueryNode.children] using h)
    simp only [QueryNode.or.sizeOf_spec]
    omega
  | not w cs =>
    have h2 := List.sizeOf_lt_of_mem (by simpa [QueryNode.children] using h)
    simp only [QueryNode.not.sizeOf_spec]
    omega
  | and_not w cs =>
    have h2 := List.sizeOf_lt_of_mem (by simpa [QueryNode.children] using h)
    simp only [QueryNode.and_not.sizeOf_spec]
    omega

/-- Strong induction on the size of a query-node tree. -/
theorem QueryNode.strongInd (P : QueryNode → Prop)
    (step : ∀ t, (∀ s : QueryNode, sizeOf s < sizeOf t → P s) → P t) :
    ∀ t, P t := by
  have key : ∀ n (t : QueryNode), sizeOf t < n → P t := by
    intro n
    induction n with
    | zero => intro t h; exact absurd h (Nat.not_lt_zero _)
    | succ m ih => intro t h; exact step t (fun s hs => ih s (by omega))
  exact fun t => key (sizeOf t + 1) t (Nat.lt_succ_self _)

theorem canonList_iff {cs : List QueryNode} :
    canonList cs = true ↔ ∀ c ∈ cs, canon c = true := by
  induction cs with
  | nil => simp [canonList]
  | cons c rest ih => simp [canonList, ih]

theorem andNotFreeList_iff {cs : List QueryNode} :
    andNotFreeList cs = true ↔ ∀ c ∈ cs, andNotFree c = true := by
  induction cs with
  | nil => simp [andNotFreeList]
  | cons c rest ih => simp [andNotFreeList, ih]

theorem andAndFreeList_iff {cs : List QueryNode} :
    andAndFreeList cs = true ↔ ∀ c ∈ cs, andAndFree c = true := by
  induction cs with
  | nil => simp [andAndFreeList]
  | cons c rest ih => simp [andAndFreeList, ih]

theorem atomChildFreeList_iff {cs : List QueryNode} :
    atomChildFreeList cs = true ↔ ∀ c ∈ cs, atomChildFree c = true := by
  induction cs with
  | nil => simp [atomChildFreeList]
  | cons c rest ih => simp [atomChildFreeList, ih]

theorem subtreeNonEmptyList_iff {cs : List QueryNode} :
    subtreeNonEmptyList cs = true ↔ ∀ c ∈ cs, subtreeNonEmpty c = true := by
  induction cs with
  | nil => simp [subtreeNonEmptyList]
  | cons c rest ih => simp [subtreeNonEmptyList, ih]

theorem factoryOkList_iff {cs : List QueryNode} :
    factoryOkList cs = true ↔ ∀ c ∈ cs, factoryOk c = true := by
  induction cs with
  | nil => simp [factoryOkList]
  | cons c rest ih => simp [factoryOkList, ih]

theorem andNotFirstKindOk_eq_andChildKindOk (c : QueryNode) :
    andNotFirstKindOk c = andChildKindOk c := by
  cases c <;> rfl

/-- A successful run of the driver on a child list is a pointwise successful
run of the driver on each child. -/
theorem optimizeList_ok_forall2 : ∀ {cs cs2 : List QueryNode},
    optimizeList cs = .ok cs2 →
    List.Forall₂ (fun c c2 => optimize c = .ok c2) cs cs2 := by
  intro cs
  induction cs with
  | nil =>
    intro cs2 h
    simp only [optimizeList] at h
    cases h
    exact List.Forall₂.nil
  | cons c rest ih =>
    intro cs2 h
    rw [optimizeList] at h
    cases h1 : optimize c with
    | error e => rw [h1] at h; cases h
    | ok c2 =>
      rw [h1] at h
      cases h2 : optimizeList rest with
      | error e => rw [h2] at h; cases h
      | ok rest2 =>
        rw [h2] at h
        cases h
        exact List.Forall₂.cons h1 (ih h2)

theorem forall2_ok_mem {R : QueryNode → QueryNode → Prop} {Q : QueryNode → Prop} :
    ∀ {cs cs2 : List QueryNode}, List.Forall₂ R cs cs2 →
    (∀ c ∈ cs, ∀ c2, R c c2 → Q c2) → ∀ c2 ∈ cs2, Q c2 := by
  intro cs cs2 hf
  induction hf with
  | nil => intro _ c2 h; simp at h
  | @cons a b l1 l2 hab _ ih =>
    intro hall c2 hmem
    rcases List.mem_cons.mp hmem with h | h
    · exact h ▸ hall a (List.mem_cons_self a l1) b hab
    · exact ih (fun c hc c2 hr => hall c (List.mem_cons_of_mem a hc) c2 hr) c2 h

theorem canon_and_iff {w : Rat} {cs : List QueryNode} :
    canon (.and w cs) = true ↔
      w = 1 ∧ 2 ≤ cs.length ∧ (∀ c ∈ cs, andChildKindOk c = true) ∧
        ∀ c ∈ cs, canon c = true := by
  simp [canon, canonList_iff, List.all_eq_true, and_assoc]

theorem canon_or_iff {w : Rat} {cs : List QueryNode} :
    canon (.or w cs) = true ↔
      w = 1 ∧ 2 ≤ cs.length ∧ (∀ c ∈ cs, notChildKindOk c = true) ∧
        ∀ c ∈ cs, canon c = true := by
  simp [canon, canonList_iff, List.all_eq_true, and_assoc]

theorem canon_not_iff {w : Rat} {cs : List QueryNode} :
    canon (.not w cs) = true ↔
      w = 1 ∧ 1 ≤ cs.length ∧ (∀ c ∈ cs, notChildKindOk c = true) ∧
        ∀ c ∈ cs, canon c = true := by
  simp [canon, canonList_iff, List.all_eq_true, and_assoc]

theorem canon_and_not_nil {w : Rat} : canon (.and_not w []) = false := by
  simp [canon]

theorem canon_and_not_cons_iff {w : Rat} {f : QueryNode} {r : List QueryNode} :
    canon (.and_not w (f :: r)) = true ↔
      w = 1 ∧ 2 ≤ r.length + 1 ∧ andNotFirstKindOk f = true ∧
        (∀ c ∈ r, notChildKindOk c = true) ∧ canon f = true ∧
        ∀ c ∈ r, canon c = true := by
  simp [canon, canonList_iff, List.all_eq_true, and_assoc]

theorem andNotFirstFlatten_canon {f : QueryNode} (hk : andNotFirstKindOk f = true)
    (hc : canon f = true) :
    (∀ x ∈ andNotFirstFlatten f, canon x = true ∧ andChildKindOk x = true) ∧
      1 ≤ (andNotFirstFlatten f).length := by
  cases f with
  | and fw fgs =>
    obtain ⟨-, hlen, hkinds, hcanon⟩ := canon_and_iff.mp hc
    exact ⟨fun x hx => ⟨hcanon x hx, hkinds x hx⟩, by simp [andNotFirstFlatten]; omega⟩
  | term a b c =>
    exact ⟨by rintro x hx; simp [andNotFirstFlatten] at hx; subst hx; exact ⟨hc, rfl⟩, by simp [andNotFirstFlatten]⟩
  | atom a b c => simp [andNotFirstKindOk] at hk
  | or a b =>
    exact ⟨by rintro x hx; simp [andNotFirstFlatten] at hx; subst hx; exact ⟨hc, rfl⟩, by simp [andNotFirstFlatten]⟩
  | not a b => simp [andNotFirstKindOk] at hk
  | and_not a b =>
    exact ⟨by rintro x hx; simp [andNotFirstFlatten] at hx; subst hx; exact ⟨hc, rfl⟩, by simp [andNotFirstFlatten]⟩

/-- The invariant the `AND` rewrite's child loop establishes on its two
lists, given canonical children. -/
theorem andCollect_canon : ∀ {cs al nl : List QueryNode},
    AndQueryNode.collect cs = .ok (al, nl) →
    (∀ c ∈ cs, canon c = true) →
    (∀ x ∈ al, canon x = true ∧ andChildKindOk x = true) ∧
    (∀ x ∈ nl, canon x = true ∧ notChildKindOk x = true) ∧
    cs.length ≤ al.length + nl.length := by
  intro cs
  induction cs with
  | nil =>
    intro al nl h _
    simp only [AndQueryNode.collect] at h
    cases h
    exact ⟨by simp, by simp, by simp⟩
  | cons c rest ih =>
    intro al nl h hcanon
    rw [AndQueryNode.collect] at h
    cases hrest : AndQueryNode.collect rest with
    | error e => rw [hrest] at h; cases h
    | ok p =>
      obtain ⟨al', nl'⟩ := p
      rw [hrest] at h
      have hcr : ∀ c' ∈ rest, canon c' = true :=
        fun c' hc' => hcanon c' (List.mem_cons_of_mem _ hc')
      obtain ⟨ihal, ihnl, ihlen⟩ := ih hrest hcr
      have hc : canon c = true := hcanon c (List.mem_cons_self _ _)
      cases c with
      | term cw cc cts =>
        cases h
        refine ⟨?_, ihnl, by simp; omega⟩
        rintro x hx
        rcases List.mem_cons.mp hx with h | h
        · subst h; exact ⟨hc, rfl⟩
        · exact ihal x h
      | atom cw ck cp => cases h
      | and cw gs =>
        cases h
        obtain ⟨-, hlen, hkinds, hcanon2⟩ := canon_and_iff.mp hc
        refine ⟨?_, ihnl, by simp; omega⟩
        rintro x hx
        rcases List.mem_append.mp hx with h | h
        · exact ⟨hcanon2 x h, hkinds x h⟩
        · exact ihal x h
      | or cw gs =>
        cases h
        refine ⟨?_, ihnl, by simp; omega⟩
        rintro x hx
        rcases List.mem_cons.mp hx with h | h
        · subst h; exact ⟨hc, rfl⟩
        · exact ihal x h
      | not cw gs =>
        cases h
        obtain ⟨-, hlen, hkinds, hcanon2⟩ := canon_not_iff.mp hc
        refine ⟨ihal, ?_, by simp; omega⟩
        rintro x hx
        rcases List.mem_append.mp hx with h | h
        · exact ⟨hcanon2 x h, hkinds x h⟩
        · exact ihnl x h
      | and_not cw ccs =>
        cases ccs with
        | nil => cases h
        | cons f r =>
          cases h
          obtain ⟨-, hlen, hfk, hrk, hfc, hrc⟩ := canon_and_not_cons_iff.mp hc
          obtain ⟨hflat, hflatlen⟩ := andNotFirstFlatten_canon hfk hfc
          refine ⟨?_, ?_, by simp; omega⟩
          · rintro x hx
            rcases List.mem_append.mp hx with h | h
            · exact hflat x h
            · exact ihal x h
          · rintro x hx
            rcases List.mem_append.mp hx with h | h
            · exact ⟨hrc x h, hrk x h⟩
            · exact ihnl x h

/-- The invariant the `NOT` rewrite's child loop establishes, given
canonical children. -/
theorem notCollect_canon : ∀ {cs l : List QueryNode},
    NotQueryNode.collect cs = .ok l →
    (∀ c ∈ cs, canon c = true) →
    (∀ x ∈ l, canon x = true ∧ notChildKindOk x = true) ∧ cs.length ≤ l.length := by
  intro cs
  induction cs with
  | nil =>
    intro l h _
    simp only [NotQueryNode.collect] at h
    cases h
    exact ⟨by simp, by simp⟩
  | cons c rest ih =>
    intro l h hcanon
    rw [NotQueryNode.collect] at h
    cases hrest : NotQueryNode.collect rest with
    | error e => rw [hrest] at h; cases h
    | ok r =>
      rw [hrest] at h
      have hcr : ∀ c' ∈ rest, canon c' = true :=
        fun c' hc' => hcanon c' (List.mem_cons_of_mem _ hc')
      obtain ⟨ihr, ihlen⟩ := ih hrest hcr
      have hc : canon c = true := hcanon c (List.mem_cons_self _ _)
      cases c with
      | term cw cc cts =>
        cases h
        refine ⟨?_, by simp; omega⟩
        rintro x hx
        rcases List.mem_cons.mp hx with h | h
        · subst h; exact ⟨hc, rfl⟩
        · exact ihr x h
      | atom cw ck cp => cases h
      | and cw gs =>
        cases h
        refine ⟨?_, by simp; omega⟩
        rintro x hx
        rcases List.mem_cons.mp hx with h | h
        · subst h; exact ⟨hc, rfl⟩
        · exact ihr x h
      | or cw gs =>
        cases h
        obtain ⟨-, hlen, hkinds, hcanon2⟩ := canon_or_iff.mp hc
        refine ⟨?_, by simp; omega⟩
        rintro x hx
        rcases List.mem_append.mp hx with h | h
        · exact ⟨hcanon2 x h, hkinds x h⟩
        · exact ihr x h
      | not cw gs => cases h
      | and_not cw ccs =>
        cases h
        refine ⟨?_, by simp; omega⟩
        rintro x hx
        rcases List.mem_cons.mp hx with h | h
        · subst h; exact ⟨hc, rfl⟩
        · exact ihr x h

/-- The invariant the `OR` rewrite's child loop establishes, given canonical
children: `or_list` holds canonical `TERM`/`AND`/`AND_NOT` nodes, `not_list`
holds canonical `NOT` nodes, and no child is lost. -/
theorem orCollect_canon : ∀ {cs ol nl : List QueryNode},
    OrQueryNode.collect cs = .ok (ol, nl) →
    (∀ c ∈ cs, canon c = true) →
    (∀ x ∈ ol, canon x = true ∧ notChildKindOk x = true) ∧
    (∀ x ∈ nl, canon x = true ∧ x.isNot = true) ∧
    cs.length ≤ ol.length + nl.length := by
  intro cs
  induction cs with
  | nil =>
    intro ol nl h _
    simp only [OrQueryNode.collect] at h
    cases h
    exact ⟨by simp, by simp, by simp⟩
  | cons c rest ih =>
    intro ol nl h hcanon
    rw [OrQueryNode.collect] at h
    cases hrest : OrQueryNode.collect rest with
    | error e => rw [hrest] at h; cases h
    | ok p =>
      obtain ⟨ol', nl'⟩ := p
      rw [hrest] at h
      have hcr : ∀ c' ∈ rest, canon c' = true :=
        fun c' hc' => hcanon c' (List.mem_cons_of_mem _ hc')
      obtain ⟨ihol, ihnl, ihlen⟩ := ih hrest hcr
      have hc : canon c = true := hcanon c (List.mem_cons_self _ _)
      cases c with
      | term cw cc cts =>
        cases h
        refine ⟨?_, ihnl, by simp; omega⟩
        rintro x hx
        rcases List.mem_cons.mp hx with h | h
        · subst h; exact ⟨hc, rfl⟩
        · exact ihol x h
      | atom cw ck cp => cases h
      | and cw gs =>
        cases h
        refine ⟨?_, ihnl, by simp; omega⟩
        rintro x hx
        rcases List.mem_cons.mp hx with h | h
        · subst h; exact ⟨hc, rfl⟩
        · exact ihol x h
      | or cw gs =>
        cases h
        obtain ⟨-, hlen, hkinds, hcanon2⟩ := canon_or_iff.mp hc
        refine ⟨?_, ihnl, by simp; omega⟩
        rintro x hx
        rcases List.mem_append.mp hx with h | h
        · exact ⟨hcanon2 x h, hkinds x h⟩
        · exact ihol x h
      | not cw gs =>
        cases h
        refine ⟨ihol, ?_, by simp; omega⟩
        rintro x hx
        rcases List.mem_cons.mp hx with h | h
        · subst h; exact ⟨hc, rfl⟩
        · exact ihnl x h
      | and_not cw ccs =>
        cases h
        refine ⟨?_, ihnl, by simp; omega⟩
        rintro x hx
        rcases List.mem_cons.mp hx with h | h
        · subst h; exact ⟨hc, rfl⟩
        · exact ihol x h

/-- The `AND` rewrite yields a canonical node whenever it is given at least
two canonical children and succeeds. -/
theorem andInner_canon {cs : List QueryNode} {u : QueryNode}
    (hcanon : ∀ c ∈ cs, canon c = true)
    (h : AndQueryNode.OptimizeInPlaceInner cs = .ok u) : canon u = true := by
  unfold AndQueryNode.OptimizeInPlaceInner at h
  split at h
  · cases h
  · rename_i hlen
    split at h
    · cases h
    · rename_i al nl hcol
      obtain ⟨hal, hnl, hlen2⟩ := andCollect_canon hcol hcanon
      split at h
      · rename_i hae
        cases h
        have hal0 : al = [] := by simpa using hae
        subst hal0
        rw [canon_not_iff]
        exact ⟨rfl, by simp at hlen2; omega,
          fun c hcm => (hnl c hcm).2, fun c hcm => (hnl c hcm).1⟩
      · rename_i hae
        split at h
        · rename_i hne
          cases h
          have hnl0 : nl = [] := by simpa using hne
          subst hnl0
          rw [canon_and_iff]
          exact ⟨rfl, by simp at hlen2; omega,
            fun c hcm => (hal c hcm).2, fun c hcm => (hal c hcm).1⟩
        · rename_i hne
          have hnlen : 1 ≤ nl.length := by
            cases nl with
            | nil => simp at hne
            | cons a b => simp
          split at h
          · rename_i x
            cases h
            rw [canon_and_not_cons_iff]
            refine ⟨rfl, by omega, ?_, fun c hcm => (hnl c hcm).2,
              (hal x (List.mem_cons_self _ _)).1, fun c hcm => (hnl c hcm).1⟩
            rw [andNotFirstKindOk_eq_andChildKindOk]
            exact (hal x (List.mem_cons_self _ _)).2
          · rename_i hnotsingle
            cases h
            have halen : 1 ≤ al.length := by
              cases al with
              | nil => simp at hae
              | cons a b => simp
            have halen2 : 2 ≤ al.length := by
              cases al with
              | nil => simp at hae
              | cons a b =>
                cases b with
                | nil => exact absurd rfl (hnotsingle a)
                | cons a2 b2 => simp
            rw [canon_and_not_cons_iff]
            refine ⟨rfl, by omega, rfl, fun c hcm => (hnl c hcm).2, ?_,
              fun c hcm => (hnl c hcm).1⟩
            rw [canon_and_iff]
            exact ⟨rfl, halen2, fun c hcm => (hal c hcm).2,
              fun c hcm => (hal c hcm).1⟩

/-- The `NOT` rewrite yields a canonical node whenever it is given at least
one canonical child and succeeds. -/
theorem notInner_canon {cs : List QueryNode} {u : QueryNode}
    (hcanon : ∀ c ∈ cs, canon c = true)
    (h : NotQueryNode.OptimizeInPlaceInner cs = .ok u) : canon u = true := by
  unfold NotQueryNode.OptimizeInPlaceInner at h
  split at h
  · cases h
  · rename_i hne
    cases hcol : NotQueryNode.collect cs with
    | error e => rw [hcol] at h; cases h
    | ok l =>
      rw [hcol] at h
      cases h
      obtain ⟨hl, hlen⟩ := notCollect_canon hcol hcanon
      have : 1 ≤ cs.length := by
        cases cs with
        | nil => simp at hne
        | cons a b => simp
      rw [canon_not_iff]
      exact ⟨rfl, by omega, fun c hcm => (hl c hcm).2, fun c hcm => (hl c hcm).1⟩

/-- The De Morgan collapse of a canonical `NOT` node is canonical and of a
kind admissible inside the fresh `AND`. -/
theorem collapseNot_canon {x : QueryNode} (hx : canon x = true)
    (hnot : x.isNot = true) :
    canon (OrQueryNode.collapseNot x) = true ∧
      andChildKindOk (OrQueryNode.collapseNot x) = true := by
  cases x with
  | not w gs =>
    obtain ⟨-, hlen, hkinds, hcanon⟩ := canon_not_iff.mp hx
    cases gs with
    | nil => simp at hlen
    | cons g rest =>
      cases rest with
      | nil =>
        have hg : canon g = true := hcanon g (List.mem_cons_self _ _)
        have hk : notChildKindOk g = true := hkinds g (List.mem_cons_self _ _)
        refine ⟨by simpa [OrQueryNode.collapseNot] using hg, ?_⟩
        cases g <;> simp_all [OrQueryNode.collapseNot, notChildKindOk, andChildKindOk]
      | cons g2 rest2 =>
        refine ⟨?_, rfl⟩
        rw [show OrQueryNode.collapseNot (.not w (g :: g2 :: rest2)) =
          .or 1 (g :: g2 :: rest2) from rfl]
        rw [canon_or_iff]
        exact ⟨rfl, by simp, hkinds, hcanon⟩
  | term a b c => simp [QueryNode.isNot] at hnot
  | atom a b c => simp [QueryNode.isNot] at hnot
  | and a b => simp [QueryNode.isNot] at hnot
  | or a b => simp [QueryNode.isNot] at hnot
  | and_not a b => simp [QueryNode.isNot] at hnot

/-- The `OR` rewrite yields a canonical node whenever it is given at least
two canonical children and succeeds. -/
theorem orInner_canon {cs : List QueryNode} {u : QueryNode}
    (hcanon : ∀ c ∈ cs, canon c = true)
    (h : OrQueryNode.OptimizeInPlaceInner cs = .ok u) : canon u = true := by
  unfold OrQueryNode.OptimizeInPlaceInner at h
  split at h
  · cases h
  · rename_i hlen
    split at h
    · cases h
    · rename_i ol nl hcol
      obtain ⟨hol, hnl, hlen2⟩ := orCollect_canon hcol hcanon
      split at h
      · rename_i hoe
        cases h
        have hol0 : ol = [] := by simpa using hoe
        subst hol0
        rw [canon_not_iff]
        refine ⟨rfl, by simp, ?_, ?_⟩
        · rintro c hcm
          rcases List.mem_singleton.mp hcm with rfl
          rfl
        · rintro c hcm
          rcases List.mem_singleton.mp hcm with rfl
          rw [canon_and_iff]
          refine ⟨rfl, by simp at hlen2 ⊢; omega, ?_, ?_⟩
          · rintro x hx
            rcases List.mem_map.mp hx with ⟨y, hy, rfl⟩
            exact (collapseNot_canon (hnl y hy).1 (hnl y hy).2).2
          · rintro x hx
            rcases List.mem_map.mp hx with ⟨y, hy, rfl⟩
            exact (collapseNot_canon (hnl y hy).1 (hnl y hy).2).1
      · rename_i hoe
        split at h
        · rename_i hne
          cases h
          have hnl0 : nl = [] := by simpa using hne
          subst hnl0
          rw [canon_or_iff]
          exact ⟨rfl, by simp at hlen2; omega,
            fun c hcm => (hol c hcm).2, fun c hcm => (hol c hcm).1⟩
        · cases h

/-- Every tree the normalizer accepts is canonical in the sense of `canon`. -/
theorem optimize_canon : ∀ t : QueryNode, ∀ u, optimize t = .ok u → canon u = true := by
  apply QueryNode.strongInd (fun t => ∀ u, optimize t = .ok u → canon u = true)
  intro t ih u h
  cases t with
  | term w c s => rw [optimize] at h; cases h; rfl
  | atom w k p => rw [optimize] at h; cases h; rfl
  | and w cs =>
    rw [optimize] at h
    cases hcs : optimizeList cs with
    | error e => rw [hcs] at h; cases h
    | ok cs2 =>
      rw [hcs] at h
      have hcanon2 : ∀ c2 ∈ cs2, canon c2 = true :=
        forall2_ok_mem (optimizeList_ok_forall2 hcs)
          (fun c hc c2 hr => ih c (sizeOf_lt_of_mem_children (by simpa [QueryNode.children] using hc)) c2 hr)
      exact andInner_canon hcanon2 h
  | or w cs =>
    rw [optimize] at h
    cases hcs : optimizeList cs with
    | error e => rw [hcs] at h; cases h
    | ok cs2 =>
      rw [hcs] at h
      have hcanon2 : ∀ c2 ∈ cs2, canon c2 = true :=
        forall2_ok_mem (optimizeList_ok_forall2 hcs)
          (fun c hc c2 hr => ih c (sizeOf_lt_of_mem_children (by simpa [QueryNode.children] using hc)) c2 hr)
      exact orInner_canon hcanon2 h
  | not w cs =>
    rw [optimize] at h
    cases hcs : optimizeList cs with
    | error e => rw [hcs] at h; cases h
    | ok cs2 =>
      rw [hcs] at h
      have hcanon2 : ∀ c2 ∈ cs2, canon c2 = true :=
        forall2_ok_mem (optimizeList_ok_forall2 hcs)
          (fun c hc c2 hr => ih c (sizeOf_lt_of_mem_children (by simpa [QueryNode.children] using hc)) c2 hr)
      exact notInner_canon hcanon2 h
  | and_not w cs =>
    rw [optimize] at h
    cases hcs : optimizeList cs with
    | error e => rw [hcs] at h; cases h
    | ok cs2 =>
      rw [hcs] at h
      cases h

/-! ## Semantic preservation machinery -/

theorem evalAll_append (σ : String → String → Bool) (τ : OpaqueKind → String → Bool) :
    ∀ l1 l2 : List QueryNode,
      evalAll σ τ (l1 ++ l2) = (evalAll σ τ l1 && evalAll σ τ l2) := by
  intro l1 l2
  induction l1 with
  | nil => simp [evalAll]
  | cons c rest ih => simp [evalAll, ih, Bool.and_assoc]

theorem evalAny_append (σ : String → String → Bool) (τ : OpaqueKind → String → Bool) :
    ∀ l1 l2 : List QueryNode,
      evalAny σ τ (l1 ++ l2) = (evalAny σ τ l1 || evalAny σ τ l2) := by
  intro l1 l2
  induction l1 with
  | nil => simp [evalAny]
  | cons c rest ih => simp [evalAny, ih, Bool.or_assoc]

theorem forall2_imp_mem {R S : QueryNode → QueryNode → Prop} :
    ∀ {cs cs2 : List QueryNode}, List.Forall₂ R cs cs2 →
    (∀ c ∈ cs, ∀ c2, R c c2 → S c c2) → List.Forall₂ S cs cs2 := by
  intro cs cs2 hf
  induction hf with
  | nil => intro _; exact List.Forall₂.nil
  | @cons a b l1 l2 hab _ ih =>
    intro hall
    exact List.Forall₂.cons (hall a (List.mem_cons_self a l1) b hab)
      (ih fun c hc c2 hr => hall c (List.mem_cons_of_mem a hc) c2 hr)

theorem evalAll_congr {σ : String → String → Bool} {τ : OpaqueKind → String → Bool} :
    ∀ {cs cs2 : List QueryNode},
      List.Forall₂ (fun c c2 => eval σ τ c2 = eval σ τ c) cs cs2 →
      evalAll σ τ cs2 = evalAll σ τ cs := by
  intro cs cs2 hf
  induction hf with
  | nil => rfl
  | cons hab _ ih => simp [evalAll, hab, ih]

theorem evalAny_congr {σ : String → String → Bool} {τ : OpaqueKind → String → Bool} :
    ∀ {cs cs2 : List QueryNode},
      List.Forall₂ (fun c c2 => eval σ τ c2 = eval σ τ c) cs cs2 →
      evalAny σ τ cs2 = evalAny σ τ cs := by
  intro cs cs2 hf
  induction hf with
  | nil => rfl
  | cons hab _ ih => simp [evalAny, hab, ih]

/-- The `NOT` rewrite's child loop preserves the disjunction of the children
(an `OR` child stands for the disjunction of its own children). -/
theorem notCollect_eval {σ : String → String → Bool} {τ : OpaqueKind → String → Bool} :
    ∀ {cs l : List QueryNode}, NotQueryNode.collect cs = .ok l →
      evalAny σ τ l = evalAny σ τ cs := by
  intro cs
  induction cs with
  | nil =>
    intro l h
    simp only [NotQueryNode.collect] at h
    cases h
    rfl
  | cons c rest ih =>
    intro l h
    rw [NotQueryNode.collect] at h
    cases hrest : NotQueryNode.collect rest with
    | error e => rw [hrest] at h; cases h
    | ok r =>
      rw [hrest] at h
      have ihe := ih hrest
      cases c with
      | term cw cc cts => cases h; simp [evalAny, ihe]
      | atom cw ck cp => cases h
      | and cw gs => cases h; simp [evalAny, ihe]
      | or cw gs => cases h; rw [evalAny_append, ihe]; rfl
      | not cw gs => cases h
      | and_not cw ccs => cases h; simp [evalAny, ihe]

theorem andNotFirstFlatten_eval {σ : String → String → Bool}
    {τ : OpaqueKind → String → Bool} (f : QueryNode) :
    evalAll σ τ (andNotFirstFlatten f) = eval σ τ f := by
  cases f <;> simp [andNotFirstFlatten, evalAll, eval]

/-- The `AND` rewrite's child loop preserves the conjunction of the children:
the conjunction of `and_list` minus the disjunction of `not_list` equals the
conjunction of the original children. -/
theorem andCollect_eval {σ : String → String → Bool} {τ : OpaqueKind → String → Bool} :
    ∀ {cs al nl : List QueryNode}, AndQueryNode.collect cs = .ok (al, nl) →
      (evalAll σ τ al && !evalAny σ τ nl) = evalAll σ τ cs := by
  intro cs
  induction cs with
  | nil =>
    intro al nl h
    simp only [AndQueryNode.collect] at h
    cases h
    rfl
  | cons c rest ih =>
    intro al nl h
    rw [AndQueryNode.collect] at h
    cases hrest : AndQueryNode.collect rest with
    | error e => rw [hrest] at h; cases h
    | ok p =>
      obtain ⟨al', nl'⟩ := p
      rw [hrest] at h
      have ihe := ih hrest
      have key1 : ∀ a b c d : Bool, ((b && !c) = d) → (((a && b) && !c) = (a && d)) := by
        decide
      have key2 : ∀ a g n r : Bool, ((a && !n) = r) → ((a && !(g || n)) = (!g && r)) := by
        decide
      have key3 : ∀ ef a er n r : Bool, ((a && !n) = r) →
          (((ef && a) && !(er || n)) = ((ef && !er) && r)) := by
        decide
      cases c with
      | term cw cc cts =>
        cases h
        rw [show evalAll σ τ (QueryNode.term cw cc cts :: rest) =
          (σ cc cts && evalAll σ τ rest) from rfl]
        exact key1 _ _ _ _ ihe
      | atom cw ck cp => cases h
      | and cw gs =>
        cases h
        rw [evalAll_append,
          show evalAll σ τ (QueryNode.and cw gs :: rest) =
            (evalAll σ τ gs && evalAll σ τ rest) from rfl]
        exact key1 _ _ _ _ ihe
      | or cw gs =>
        cases h
        rw [show evalAll σ τ (QueryNode.or cw gs :: rest) =
          (evalAny σ τ gs && evalAll σ τ rest) from rfl]
        exact key1 _ _ _ _ ihe
      | not cw gs =>
        cases h
        rw [evalAny_append,
          show evalAll σ τ (QueryNode.not cw gs :: rest) =
            (!evalAny σ τ gs && evalAll σ τ rest) from rfl]
        exact key2 _ _ _ _ ihe
      | and_not cw ccs =>
        cases ccs with
        | nil => cases h
        | cons f r0 =>
          cases h
          rw [evalAll_append, evalAny_append, andNotFirstFlatten_eval f,
            show evalAll σ τ (QueryNode.and_not cw (f :: r0) :: rest) =
              ((eval σ τ f && !evalAny σ τ r0) && evalAll σ τ rest) from rfl]
          exact key3 _ _ _ _ _ ihe

/-- The `OR` rewrite's child loop preserves the disjunction of the children,
with `not_list` holding whole `NOT` children. -/
theorem orCollect_eval {σ : String → String → Bool} {τ : OpaqueKind → String → Bool} :
    ∀ {cs ol nl : List QueryNode}, OrQueryNode.collect cs = .ok (ol, nl) →
      (evalAny σ τ ol || evalAny σ τ nl) = evalAny σ τ cs := by
  intro cs
  induction cs with
  | nil =>
    intro ol nl h
    simp only [OrQueryNode.collect] at h
    cases h
    rfl
  | cons c rest ih =>
    intro ol nl h
    rw [OrQueryNode.collect] at h
    cases hrest : OrQueryNode.collect rest with
    | error e => rw [hrest] at h; cases h
    | ok p =>
      obtain ⟨ol', nl'⟩ := p
      rw [hrest] at h
      have ihe := ih hrest
      have key1 : ∀ a b c d : Bool, ((b || c) = d) → (((a || b) || c) = (a || d)) := by
        decide
      have key2 : ∀ a b c d : Bool, ((b || c) = d) → ((b || (a || c)) = (a || d)) := by
        decide
      cases c with
      | term cw cc cts =>
        cases h
        rw [show evalAny σ τ (QueryNode.term cw cc cts :: rest) =
          (σ cc cts || evalAny σ τ rest) from rfl]
        exact key1 _ _ _ _ ihe
      | atom cw ck cp => cases h
      | and cw gs =>
        cases h
        rw [show evalAny σ τ (QueryNode.and cw gs :: rest) =
          (evalAll σ τ gs || evalAny σ τ rest) from rfl]
        exact key1 _ _ _ _ ihe
      | or cw gs =>
        cases h
        rw [evalAny_append,
          show evalAny σ τ (QueryNode.or cw gs :: rest) =
            (evalAny σ τ gs || evalAny σ τ rest) from rfl]
        exact key1 _ _ _ _ ihe
      | not cw gs =>
        cases h
        rw [show evalAny σ τ (QueryNode.not cw gs :: rest) =
          (!evalAny σ τ gs || evalAny σ τ rest) from rfl,
          show evalAny σ τ (QueryNode.not cw gs :: nl') =
            (!evalAny σ τ gs || evalAny σ τ nl') from rfl]
        exact key2 _ _ _ _ ihe
      | and_not cw ccs =>
        cases h
        rw [show evalAny σ τ (QueryNode.and_not cw ccs :: rest) =
          (eval σ τ (QueryNode.and_not cw ccs) || evalAny σ τ rest) from rfl,
          show evalAny σ τ (QueryNode.and_not cw ccs :: ol') =
            (eval σ τ (QueryNode.and_not cw ccs) || evalAny σ τ ol') from rfl]
        exact key1 _ _ _ _ ihe

/-- A list produced by the `OR` rewrite's child loop as `not_list` holds only
`NOT` nodes (needed without any canonicity assumption). -/
theorem orCollect_notlist : ∀ {cs ol nl : List QueryNode},
    OrQueryNode.collect cs = .ok (ol, nl) → ∀ x ∈ nl, x.isNot = true := by
  intro cs
  induction cs with
  | nil =>
    intro ol nl h
    simp only [OrQueryNode.collect] at h
    cases h
    simp
  | cons c rest ih =>
    intro ol nl h
    rw [OrQueryNode.collect] at h
    cases hrest : OrQueryNode.collect rest with
    | error e => rw [hrest] at h; cases h
    | ok p =>
      obtain ⟨ol', nl'⟩ := p
      rw [hrest] at h
      cases c with
      | term cw cc cts => cases h; exact ih hrest
      | atom cw ck cp => cases h
      | and cw gs => cases h; exact ih hrest
      | or cw gs => cases h; exact ih hrest
      | not cw gs =>
        cases h
        rintro x hx
        rcases List.mem_cons.mp hx with h | h
        · subst h; rfl
        · exact ih hrest x h
      | and_not cw ccs => cases h; exact ih hrest

theorem collapseNot_eval {σ : String → String → Bool} {τ : OpaqueKind → String → Bool}
    {x : QueryNode} (hx : x.isNot = true) :
    eval σ τ (OrQueryNode.collapseNot x) = !(eval σ τ x) := by
  cases x with
  | not w gs =>
    cases gs with
    | nil => simp [OrQueryNode.collapseNot, eval, evalAny]
    | cons g rest =>
      cases rest with
      | nil => simp [OrQueryNode.collapseNot, eval, evalAny]
      | cons g2 rest2 => simp [OrQueryNode.collapseNot, eval]
  | term a b c => simp [QueryNode.isNot] at hx
  | atom a b c => simp [QueryNode.isNot] at hx
  | and a b => simp [QueryNode.isNot] at hx
  | or a b => simp [QueryNode.isNot] at hx
  | and_not a b => simp [QueryNode.isNot] at hx

theorem mapCollapse_eval {σ : String → String → Bool} {τ : OpaqueKind → String → Bool} :
    ∀ {nl : List QueryNode}, (∀ x ∈ nl, x.isNot = true) →
      evalAll σ τ (nl.map OrQueryNode.collapseNot) = !(evalAny σ τ nl) := by
  intro nl
  induction nl with
  | nil => intro _; rfl
  | cons x rest ih =>
    intro hall
    have hx := collapseNot_eval (σ := σ) (τ := τ) (hall x (List.mem_cons_self _ _))
    have ihr := ih fun y hy => hall y (List.mem_cons_of_mem _ hy)
    rw [List.map_cons,
      show evalAll σ τ (OrQueryNode.collapseNot x :: List.map OrQueryNode.collapseNot rest) =
        (eval σ τ (OrQueryNode.collapseNot x) && evalAll σ τ (List.map OrQueryNode.collapseNot rest)) from rfl,
      hx, ihr,
      show evalAny σ τ (x :: rest) = (eval σ τ x || evalAny σ τ rest) from rfl]
    cases eval σ τ x <;> simp

/-- The `AND` rewrite preserves the conjunction semantics of the node. -/
theorem andInner_eval {σ : String → String → Bool} {τ : OpaqueKind → String → Bool}
    {cs : List QueryNode} {u : QueryNode}
    (h : AndQueryNode.OptimizeInPlaceInner cs = .ok u) :
    eval σ τ u = evalAll σ τ cs := by
  unfold AndQueryNode.OptimizeInPlaceInner at h
  split at h
  · cases h
  · split at h
    · cases h
    · rename_i al nl hcol
      have he := andCollect_eval (σ := σ) (τ := τ) hcol
      split at h
      · rename_i hae
        cases h
        have hal0 : al = [] := by simpa using hae
        subst hal0
        rw [show eval σ τ (QueryNode.not 1 nl) = !(evalAny σ τ nl) from rfl, ← he]
        simp [evalAll]
      · rename_i hae
        split at h
        · rename_i hne
          cases h
          have hnl0 : nl = [] := by simpa using hne
          subst hnl0
          rw [show eval σ τ (QueryNode.and 1 al) = evalAll σ τ al from rfl, ← he]
          simp [evalAny]
        · rename_i hne
          split at h
          · rename_i x
            cases h
            rw [show eval σ τ (QueryNode.and_not 1 (x :: nl)) =
              (eval σ τ x && !evalAny σ τ nl) from rfl, ← he]
            simp [evalAll]
          · cases h
            rw [show eval σ τ (QueryNode.and_not 1 (QueryNode.and 1 al :: nl)) =
              (evalAll σ τ al && !evalAny σ τ nl) from rfl, he]

/-- The `NOT` rewrite preserves the negated-disjunction semantics of the
node. -/
theorem notInner_eval {σ : String → String → Bool} {τ : OpaqueKind → String → Bool}
    {cs : List QueryNode} {u : QueryNode}
    (h : NotQueryNode.OptimizeInPlaceInner cs = .ok u) :
    eval σ τ u = !(evalAny σ τ cs) := by
  unfold NotQueryNode.OptimizeInPlaceInner at h
  split at h
  · cases h
  · cases hcol : NotQueryNode.collect cs with
    | error e => rw [hcol] at h; cases h
    | ok l =>
      rw [hcol] at h
      cases h
      rw [show eval σ τ (QueryNode.not 1 l) = !(evalAny σ τ l) from rfl,
        notCollect_eval hcol]

/-- The `OR` rewrite preserves the disjunction semantics of the node. -/
theorem orInner_eval {σ : String → String → Bool} {τ : OpaqueKind → String → Bool}
    {cs : List QueryNode} {u : QueryNode}
    (h : OrQueryNode.OptimizeInPlaceInner cs = .ok u) :
    eval σ τ u = evalAny σ τ cs := by
  unfold OrQueryNode.OptimizeInPlaceInner at h
  split at h
  · cases h
  · split at h
    · cases h
    · rename_i ol nl hcol
      have he := orCollect_eval (σ := σ) (τ := τ) hcol
      split at h
      · rename_i hoe
        cases h
        have hol0 : ol = [] := by simpa using hoe
        subst hol0
        rw [show eval σ τ (QueryNode.not 1 [QueryNode.and 1 (nl.map OrQueryNode.collapseNot)]) =
          !(evalAll σ τ (nl.map OrQueryNode.collapseNot) || false) from rfl,
          mapCollapse_eval (orCollect_notlist hcol), ← he]
        simp [evalAny]
      · split at h
        · rename_i hne
          cases h
          have hnl0 : nl = [] := by simpa using hne
          subst hnl0
          rw [show eval σ τ (QueryNode.or 1 ol) = evalAny σ τ ol from rfl, ← he]
          simp [evalAny]
        · cases h

/-- Normalization preserves the boolean semantics: an accepted tree and its
normal form agree under every assignment. -/
theorem optimize_eval : ∀ t : QueryNode, ∀ u, optimize t = .ok u →
    ∀ (σ : String → String → Bool) (τ : OpaqueKind → String → Bool),
      eval σ τ u = eval σ τ t := by
  apply QueryNode.strongInd (fun t => ∀ u, optimize t = .ok u →
    ∀ σ τ, eval σ τ u = eval σ τ t)
  intro t ih u h σ τ
  cases t with
  | term w c s => rw [optimize] at h; cases h; rfl
  | atom w k p => rw [optimize] at h; cases h; rfl
  | and w cs =>
    rw [optimize] at h
    cases hcs : optimizeList cs with
    | error e => rw [hcs] at h; cases h
    | ok cs2 =>
      rw [hcs] at h
      have hcong : List.Forall₂ (fun c c2 => eval σ τ c2 = eval σ τ c) cs cs2 :=
        forall2_imp_mem (optimizeList_ok_forall2 hcs)
          (fun c hc c2 hr => ih c (sizeOf_lt_of_mem_children (by simpa [QueryNode.children] using hc)) c2 hr σ τ)
      rw [andInner_eval h,
        show eval σ τ (QueryNode.and w cs) = evalAll σ τ cs from rfl]
      exact evalAll_congr hcong
  | or w cs =>
    rw [optimize] at h
    cases hcs : optimizeList cs with
    | error e => rw [hcs] at h; cases h
    | ok cs2 =>
      rw [hcs] at h
      have hcong : List.Forall₂ (fun c c2 => eval σ τ c2 = eval σ τ c) cs cs2 :=
        forall2_imp_mem (optimizeList_ok_forall2 hcs)
          (fun c hc c2 hr => ih c (sizeOf_lt_of_mem_children (by simpa [QueryNode.children] using hc)) c2 hr σ τ)
      rw [orInner_eval h,
        show eval σ τ (QueryNode.or w cs) = evalAny σ τ cs from rfl]
      exact evalAny_congr hcong
  | not w cs =>
    rw [optimize] at h
    cases hcs : optimizeList cs with
    | error e => rw [hcs] at h; cases h
    | ok cs2 =>
      rw [hcs] at h
      have hcong : List.Forall₂ (fun c c2 => eval σ τ c2 = eval σ τ c) cs cs2 :=
        forall2_imp_mem (optimizeList_ok_forall2 hcs)
          (fun c hc c2 hr => ih c (sizeOf_lt_of_mem_children (by simpa [QueryNode.children] using hc)) c2 hr σ τ)
      rw [notInner_eval h,
        show eval σ τ (QueryNode.not w cs) = !(evalAny σ τ cs) from rfl,
        evalAny_congr hcong]
  | and_not w cs =>
    rw [optimize] at h
    cases hcs : optimizeList cs with
    | error e => rw [hcs] at h; cases h
    | ok cs2 => rw [hcs] at h; cases h

/-! ## Renormalization (restricted idempotence) machinery -/

theorem optimizeList_of_fixed : ∀ {cs : List QueryNode},
    (∀ c ∈ cs, optimize c = .ok c) → optimizeList cs = .ok cs := by
  intro cs
  induction cs with
  | nil => intro _; rfl
  | cons c rest ih =>
    intro hall
    rw [optimizeList, hall c (List.mem_cons_self _ _),
      ih fun c' hc' => hall c' (List.mem_cons_of_mem _ hc')]

theorem andCollect_id : ∀ {cs : List QueryNode},
    (∀ c ∈ cs, andChildKindOk c = true ∧ c.isAnd = false ∧ andNotFree c = true) →
    AndQueryNode.collect cs = .ok (cs, []) := by
  intro cs
  induction cs with
  | nil => intro _; rfl
  | cons c rest ih =>
    intro hall
    obtain ⟨hk, ha, hf⟩ := hall c (List.mem_cons_self _ _)
    have ihr := ih fun c' hc' => hall c' (List.mem_cons_of_mem _ hc')
    rw [AndQueryNode.collect, ihr]
    cases c with
    | term cw cc cts => rfl
    | atom cw ck cp => simp [andChildKindOk] at hk
    | and cw gs => simp [QueryNode.isAnd] at ha
    | or cw gs => rfl
    | not cw gs => simp [andChildKindOk] at hk
    | and_not cw ccs => simp [andNotFree] at hf

theorem orCollect_id : ∀ {cs : List QueryNode},
    (∀ c ∈ cs, notChildKindOk c = true ∧ andNotFree c = true) →
    OrQueryNode.collect cs = .ok (cs, []) := by
  intro cs
  induction cs with
  | nil => intro _; rfl
  | cons c rest ih =>
    intro hall
    obtain ⟨hk, hf⟩ := hall c (List.mem_cons_self _ _)
    have ihr := ih fun c' hc' => hall c' (List.mem_cons_of_mem _ hc')
    rw [OrQueryNode.collect, ihr]
    cases c with
    | term cw cc cts => rfl
    | atom cw ck cp => simp [notChildKindOk] at hk
    | and cw gs => rfl
    | or cw gs => simp [notChildKindOk] at hk
    | not cw gs => simp [notChildKindOk] at hk
    | and_not cw ccs => simp [andNotFree] at hf

theorem notCollect_id : ∀ {cs : List QueryNode},
    (∀ c ∈ cs, notChildKindOk c = true ∧ andNotFree c = true) →
    NotQueryNode.collect cs = .ok cs := by
  intro cs
  induction cs with
  | nil => intro _; rfl
  | cons c rest ih =>
    intro hall
    obtain ⟨hk, hf⟩ := hall c (List.mem_cons_self _ _)
    have ihr := ih fun c' hc' => hall c' (List.mem_cons_of_mem _ hc')
    rw [NotQueryNode.collect, ihr]
    cases c with
    | term cw cc cts => rfl
    | atom cw ck cp => simp [notChildKindOk] at hk
    | and cw gs => rfl
    | or cw gs => simp [notChildKindOk] at hk
    | not cw gs => simp [notChildKindOk] at hk
    | and_not cw ccs => simp [andNotFree] at hf

/-- A canonical tree without any `AND_NOT` node and without an `AND` directly
inside an `AND` is a fixed point of the normalizer. -/
theorem optimize_fixed_of_canon : ∀ u : QueryNode, canon u = true →
    andNotFree u = true → andAndFree u = true → optimize u = .ok u := by
  apply QueryNode.strongInd (fun u => canon u = true →
    andNotFree u = true → andAndFree u = true → optimize u = .ok u)
  intro u ih hc hnf haf
  cases u with
  | term w c s => rfl
  | atom w k p => rfl
  | and w cs =>
    obtain ⟨hw, hlen, hkinds, hcanon⟩ := canon_and_iff.mp hc
    subst hw
    have hnf2 : ∀ c ∈ cs, andNotFree c = true := by
      rw [show andNotFree (.and 1 cs) = andNotFreeList cs from rfl, andNotFreeList_iff] at hnf
      exact hnf
    have hafsplit : (cs.all (fun c => !c.isAnd) = true) ∧ andAndFreeList cs = true := by
      rw [show andAndFree (.and 1 cs) =
        (cs.all (fun c => !c.isAnd) && andAndFreeList cs) from rfl, Bool.and_eq_true] at haf
      exact haf
    have haf2 : ∀ c ∈ cs, andAndFree c = true := andAndFreeList_iff.mp hafsplit.2
    have hnoand : ∀ c ∈ cs, c.isAnd = false := by
      intro c hcm
      have := List.all_eq_true.mp hafsplit.1 c hcm
      simpa using this
    have hfix : ∀ c ∈ cs, optimize c = .ok c := fun c hcm =>
      ih c (sizeOf_lt_of_mem_children (by simpa [QueryNode.children] using hcm))
        (hcanon c hcm) (hnf2 c hcm) (haf2 c hcm)
    have hne : cs.isEmpty = false := by
      cases cs with
      | nil => simp at hlen
      | cons a b => rfl
    have hl2 : ¬(cs.length < 2) := by omega
    have hInner : AndQueryNode.OptimizeInPlaceInner cs = .ok (.and 1 cs) := by
      unfold AndQueryNode.OptimizeInPlaceInner
      rw [andCollect_id fun c hcm => ⟨hkinds c hcm, hnoand c hcm, hnf2 c hcm⟩]
      simp [hne, hl2]
    rw [optimize, optimizeList_of_fixed hfix]
    exact hInner
  | or w cs =>
    obtain ⟨hw, hlen, hkinds, hcanon⟩ := canon_or_iff.mp hc
    subst hw
    have hnf2 : ∀ c ∈ cs, andNotFree c = true := by
      rw [show andNotFree (.or 1 cs) = andNotFreeList cs from rfl, andNotFreeList_iff] at hnf
      exact hnf
    have haf2 : ∀ c ∈ cs, andAndFree c = true := by
      rw [show andAndFree (.or 1 cs) = andAndFreeList cs from rfl, andAndFreeList_iff] at haf
      exact haf
    have hknf : ∀ c ∈ cs, notChildKindOk c = true ∧ andNotFree c = true :=
      fun c hcm => ⟨hkinds c hcm, hnf2 c hcm⟩
    have hfix : ∀ c ∈ cs, optimize c = .ok c := fun c hcm =>
      ih c (sizeOf_lt_of_mem_children (by simpa [QueryNode.children] using hcm))
        (hcanon c hcm) (hnf2 c hcm) (haf2 c hcm)
    have hne : cs.isEmpty = false := by
      cases cs with
      | nil => simp at hlen
      | cons a b => rfl
    have hl2 : ¬(cs.length < 2) := by omega
    have hInner : OrQueryNode.OptimizeInPlaceInner cs = .ok (.or 1 cs) := by
      unfold OrQueryNode.OptimizeInPlaceInner
      rw [orCollect_id hknf]
      simp [hne, hl2]
    rw [optimize, optimizeList_of_fixed hfix]
    exact hInner
  | not w cs =>
    obtain ⟨hw, hlen, hkinds, hcanon⟩ := canon_not_iff.mp hc
    subst hw
    have hnf2 : ∀ c ∈ cs, andNotFree c = true := by
      rw [show andNotFree (.not 1 cs) = andNotFreeList cs from rfl, andNotFreeList_iff] at hnf
      exact hnf
    have haf2 : ∀ c ∈ cs, andAndFree c = true := by
      rw [show andAndFree (.not 1 cs) = andAndFreeList cs from rfl, andAndFreeList_iff] at haf
      exact haf
    have hknf : ∀ c ∈ cs, notChildKindOk c = true ∧ andNotFree c = true :=
      fun c hcm => ⟨hkinds c hcm, hnf2 c hcm⟩
    have hfix : ∀ c ∈ cs, optimize c = .ok c := fun c hcm =>
      ih c (sizeOf_lt_of_mem_children (by simpa [QueryNode.children] using hcm))
        (hcanon c hcm) (hnf2 c hcm) (haf2 c hcm)
    have hne : cs.isEmpty = false := by
      cases cs with
      | nil => simp at hlen
      | cons a b => rfl
    have hInner : NotQueryNode.OptimizeInPlaceInner cs = .ok (.not 1 cs) := by
      unfold NotQueryNode.OptimizeInPlaceInner
      rw [notCollect_id hknf]
      simp [hne]
    rw [optimize, optimizeList_of_fixed hfix]
    exact hInner
  | and_not w cs => simp [andNotFree] at hnf

/-! ## Rejection of opaque leaves below the root -/

theorem forall2_mem_left {R : QueryNode → QueryNode → Prop} :
    ∀ {cs cs2 : List QueryNode}, List.Forall₂ R cs cs2 →
    ∀ {c}, c ∈ cs → ∃ c2 ∈ cs2, R c c2 := by
  intro cs cs2 hf
  induction hf with
  | nil => intro c h; simp at h
  | @cons a b l1 l2 hab _ ih =>
    intro c hmem
    rcases List.mem_cons.mp hmem with h | h
    · exact ⟨b, List.mem_cons_self _ _, h ▸ hab⟩
    · obtain ⟨c2, hc2, hr⟩ := ih h
      exact ⟨c2, List.mem_cons_of_mem _ hc2, hr⟩

theorem andCollect_no_atom : ∀ {cs : List QueryNode} {p},
    AndQueryNode.collect cs = .ok p → ∀ c ∈ cs, c.isOpaque = false := by
  intro cs
  induction cs with
  | nil => intro p _ c h; simp at h
  | cons c rest ih =>
    intro p h c' hmem
    rw [AndQueryNode.collect] at h
    cases hrest : AndQueryNode.collect rest with
    | error e => rw [hrest] at h; cases h
    | ok q =>
      obtain ⟨al', nl'⟩ := q
      rw [hrest] at h
      rcases List.mem_cons.mp hmem with hh | hh
      · subst hh
        cases c' with
        | term cw cc cts => rfl
        | atom cw ck cp => cases h
        | and cw gs => rfl
        | or cw gs => rfl
        | not cw gs => rfl
        | and_not cw ccs => rfl
      · exact ih hrest c' hh

theorem orCollect_no_atom : ∀ {cs : List QueryNode} {p},
    OrQueryNode.collect cs = .ok p → ∀ c ∈ cs, c.isOpaque = false := by
  intro cs
  induction cs with
  | nil => intro p _ c h; simp at h
  | cons c rest ih =>
    intro p h c' hmem
    rw [OrQueryNode.collect] at h
    cases hrest : OrQueryNode.collect rest with
    | error e => rw [hrest] at h; cases h
    | ok q =>
      obtain ⟨ol', nl'⟩ := q
      rw [hrest] at h
      rcases List.mem_cons.mp hmem with hh | hh
      · subst hh
        cases c' with
        | term cw cc cts => rfl
        | atom cw ck cp => cases h
        | and cw gs => rfl
        | or cw gs => rfl
        | not cw gs => rfl
        | and_not cw ccs => rfl
      · exact ih hrest c' hh

theorem notCollect_no_atom : ∀ {cs : List QueryNode} {l},
    NotQueryNode.collect cs = .ok l → ∀ c ∈ cs, c.isOpaque = false := by
  intro cs
  induction cs with
  | nil => intro l _ c h; simp at h
  | cons c rest ih =>
    intro l h c' hmem
    rw [NotQueryNode.collect] at h
    cases hrest : NotQueryNode.collect rest with
    | error e => rw [hrest] at h; cases h
    | ok r =>
      rw [hrest] at h
      rcases List.mem_cons.mp hmem with hh | hh
      · subst hh
        cases c' with
        | term cw cc cts => rfl
        | atom cw ck cp => cases h
        | and cw gs => rfl
        | or cw gs => rfl
        | not cw gs => cases h
        | and_not cw ccs => rfl
      · exact ih hrest c' hh

theorem andInner_no_atom {cs : List QueryNode} {u : QueryNode}
    (h : AndQueryNode.OptimizeInPlaceInner cs = .ok u) :
    ∀ c ∈ cs, c.isOpaque = false := by
  unfold AndQueryNode.OptimizeInPlaceInner at h
  split at h
  · cases h
  · split at h
    · cases h
    · rename_i al nl hcol
      exact andCollect_no_atom hcol

theorem orInner_no_atom {cs : List QueryNode} {u : QueryNode}
    (h : OrQueryNode.OptimizeInPlaceInner cs = .ok u) :
    ∀ c ∈ cs, c.isOpaque = false := by
  unfold OrQueryNode.OptimizeInPlaceInner at h
  split at h
  · cases h
  · split at h
    · cases h
    · rename_i ol nl hcol
      exact orCollect_no_atom hcol

theorem notInner_no_atom {cs : List QueryNode} {u : QueryNode}
    (h : NotQueryNode.OptimizeInPlaceInner cs = .ok u) :
    ∀ c ∈ cs, c.isOpaque = false := by
  unfold NotQueryNode.OptimizeInPlaceInner at h
  split at h
  · cases h
  · cases hcol : NotQueryNode.collect cs with
    | error e => rw [hcol] at h; cases h
    | ok l => exact notCollect_no_atom hcol

/-- Whenever the normalizer accepts a tree, no composite node of the input
had an opaque-leaf child. -/
theorem optimize_atomChildFree : ∀ t : QueryNode, ∀ u, optimize t = .ok u →
    atomChildFree t = true := by
  apply QueryNode.strongInd (fun t => ∀ u, optimize t = .ok u → atomChildFree t = true)
  intro t ih u h
  cases t with
  | term w c s => rfl
  | atom w k p => rfl
  | and w cs =>
    rw [optimize] at h
    cases hcs : optimizeList cs with
    | error e => rw [hcs] at h; cases h
    | ok cs2 =>
      rw [hcs] at h
      have hf2 := optimizeList_ok_forall2 hcs
      have hrec : ∀ c ∈ cs, atomChildFree c = true := fun c hcm => by
        obtain ⟨c2, _, hr⟩ := forall2_mem_left hf2 hcm
        exact ih c (sizeOf_lt_of_mem_children (by simpa [QueryNode.children] using hcm)) c2 hr
      have hnoatom : ∀ c ∈ cs, c.isOpaque = false := by
        intro c hcm
        cases hco : c with
        | atom cw ck cp =>
          exfalso
          obtain ⟨c2, hc2m, hr⟩ := forall2_mem_left hf2 hcm
          rw [hco, optimize] at hr
          cases hr
          exact absurd (andInner_no_atom h _ hc2m) (by simp [QueryNode.isOpaque])
        | term cw cc cts => rfl
        | and cw gs => rfl
        | or cw gs => rfl
        | not cw gs => rfl
        | and_not cw ccs => rfl
      rw [show atomChildFree (.and w cs) =
        (cs.all (fun c => !c.isOpaque) && atomChildFreeList cs) from rfl]
      rw [Bool.and_eq_true, List.all_eq_true, atomChildFreeList_iff]
      exact ⟨fun c hcm => by simp [hnoatom c hcm], hrec⟩
  | or w cs =>
    rw [optimize] at h
    cases hcs : optimizeList cs with
    | error e => rw [hcs] at h; cases h
    | ok cs2 =>
      rw [hcs] at h
      have hf2 := optimizeList_ok_forall2 hcs
      have hrec : ∀ c ∈ cs, atomChildFree c = true := fun c hcm => by
        obtain ⟨c2, _, hr⟩ := forall2_mem_left hf2 hcm
        exact ih c (sizeOf_lt_of_mem_children (by simpa [QueryNode.children] using hcm)) c2 hr
      have hnoatom : ∀ c ∈ cs, c.isOpaque = false := by
        intro c hcm
        cases hco : c with
        | atom cw ck cp =>
          exfalso
          obtain ⟨c2, hc2m, hr⟩ := forall2_mem_left hf2 hcm
          rw [hco, optimize] at hr
          cases hr
          exact absurd (orInner_no_atom h _ hc2m) (by simp [QueryNode.isOpaque])
        | term cw cc cts => rfl
        | and cw gs => rfl
        | or cw gs => rfl
        | not cw gs => rfl
        | and_not cw ccs => rfl
      rw [show atomChildFree (.or w cs) =
        (cs.all (fun c => !c.isOpaque) && atomChildFreeList cs) from rfl]
      rw [Bool.and_eq_true, List.all_eq_true, atomChildFreeList_iff]
      exact ⟨fun c hcm => by simp [hnoatom c hcm], hrec⟩
  | not w cs =>
    rw [optimize] at h
    cases hcs : optimizeList cs with
    | error e => rw [hcs] at h; cases h
    | ok cs2 =>
      rw [hcs] at h
      have hf2 := optimizeList_ok_forall2 hcs
      have hrec : ∀ c ∈ cs, atomChildFree c = true := fun c hcm => by
        obtain ⟨c2, _, hr⟩ := forall2_mem_left hf2 hcm
        exact ih c (sizeOf_lt_of_mem_children (by simpa [QueryNode.children] using hcm)) c2 hr
      have hnoatom : ∀ c ∈ cs, c.isOpaque = false := by
        intro c hcm
        cases hco : c with
        | atom cw ck cp =>
          exfalso
          obtain ⟨c2, hc2m, hr⟩ := forall2_mem_left hf2 hcm
          rw [hco, optimize] at hr
          cases hr
          exact absurd (notInner_no_atom h _ hc2m) (by simp [QueryNode.isOpaque])
        | term cw cc cts => rfl
        | and cw gs => rfl
        | or cw gs => rfl
        | not cw gs => rfl
        | and_not cw ccs => rfl
      rw [show atomChildFree (.not w cs) =
        (cs.all (fun c => !c.isOpaque) && atomChildFreeList cs) from rfl]
      rw [Bool.and_eq_true, List.all_eq_true, atomChildFreeList_iff]
      exact ⟨fun c hcm => by simp [hnoatom c hcm], hrec⟩
  | and_not w cs =>
    rw [optimize] at h
    cases hcs : optimizeList cs with
    | error e => rw [hcs] at h; cases h
    | ok cs2 => rw [hcs] at h; cases h

/-! ## The claim-level description of the AND partition -/

theorem specAndPart_and_not_cons {w : Rat} {f : QueryNode} {r rest : List QueryNode} :
    specAndPart (.and_not w (f :: r) :: rest) =
      (andNotFirstFlatten f ++ (specAndPart rest).1, r ++ (specAndPart rest).2) := by
  cases f <;> rfl

/-- On canonical, non-opaque children, the `AND` rewrite's child loop
computes exactly the partition described by the specification's words. -/
theorem andCollect_eq_spec : ∀ {cs : List QueryNode},
    (∀ c ∈ cs, canon c = true ∧ c.isOpaque = false) →
    AndQueryNode.collect cs = .ok (specAndPart cs) := by
  intro cs
  induction cs with
  | nil => intro _; rfl
  | cons c rest ih =>
    intro hall
    obtain ⟨hc, ho⟩ := hall c (List.mem_cons_self _ _)
    have ihr := ih fun c' hc' => hall c' (List.mem_cons_of_mem _ hc')
    rw [AndQueryNode.collect, ihr]
    cases c with
    | term cw cc cts => rfl
    | atom cw ck cp => simp [QueryNode.isOpaque] at ho
    | and cw gs => rfl
    | or cw gs => rfl
    | not cw gs => rfl
    | and_not cw ccs =>
      cases ccs with
      | nil => rw [canon_and_not_nil] at hc; cases hc
      | cons f r => rw [specAndPart_and_not_cons]

/-! ## Mixed positive/negative disjunction machinery -/

/-- On non-opaque children the `OR` child loop always succeeds, a `NOT` child
forces `not_list` to be non-empty, and a canonical non-`NOT` child forces
`or_list` to be non-empty. -/
theorem orCollect_mixed : ∀ {cs : List QueryNode},
    (∀ c ∈ cs, c.isOpaque = false) →
    ∃ ol nl, OrQueryNode.collect cs = .ok (ol, nl) ∧
      ((∃ c ∈ cs, c.isNot = true) → nl ≠ []) ∧
      ((∃ c ∈ cs, c.isNot = false ∧ canon c = true) → ol ≠ []) := by
  intro cs
  induction cs with
  | nil =>
    intro _
    exact ⟨[], [], rfl, by rintro ⟨c, hcm, -⟩; simp at hcm,
      by rintro ⟨c, hcm, -⟩; simp at hcm⟩
  | cons c rest ih =>
    intro hall
    have ho := hall c (List.mem_cons_self _ _)
    obtain ⟨ol', nl', hok, hneg, hpos⟩ :=
      ih fun c' hc' => hall c' (List.mem_cons_of_mem _ hc')
    cases c with
    | term cw cc cts =>
      refine ⟨.term cw cc cts :: ol', nl', by rw [OrQueryNode.collect, hok], ?_, by simp⟩
      rintro ⟨c', hcm, hn⟩
      rcases List.mem_cons.mp hcm with h | h
      · subst h; simp [QueryNode.isNot] at hn
      · exact hneg ⟨c', h, hn⟩
    | atom cw ck cp => simp [QueryNode.isOpaque] at ho
    | and cw gs =>
      refine ⟨.and cw gs :: ol', nl', by rw [OrQueryNode.collect, hok], ?_, by simp⟩
      rintro ⟨c', hcm, hn⟩
      rcases List.mem_cons.mp hcm with h | h
      · subst h; simp [QueryNode.isNot] at hn
      · exact hneg ⟨c', h, hn⟩
    | and_not cw ccs =>
      refine ⟨.and_not cw ccs :: ol', nl', by rw [OrQueryNode.collect, hok], ?_, by simp⟩
      rintro ⟨c', hcm, hn⟩
      rcases List.mem_cons.mp hcm with h | h
      · subst h; simp [QueryNode.isNot] at hn
      · exact hneg ⟨c', h, hn⟩
    | or cw gs =>
      refine ⟨gs ++ ol', nl', by rw [OrQueryNode.collect, hok], ?_, ?_⟩
      · rintro ⟨c', hcm, hn⟩
        rcases List.mem_cons.mp hcm with h | h
        · subst h; simp [QueryNode.isNot] at hn
        · exact hneg ⟨c', h, hn⟩
      · rintro ⟨c', hcm, hn, hcc⟩
        rcases List.mem_cons.mp hcm with h | h
        · subst h
          obtain ⟨-, hlen, -, -⟩ := canon_or_iff.mp hcc
          cases gs with
          | nil => simp at hlen
          | cons g gr => simp
        · have := hpos ⟨c', h, hn, hcc⟩
          cases ol' with
          | nil => exact absurd rfl this
          | cons o os => simp
    | not cw gs =>
      refine ⟨ol', .not cw gs :: nl', by rw [OrQueryNode.collect, hok], by simp, ?_⟩
      rintro ⟨c', hcm, hn, hcc⟩
      rcases List.mem_cons.mp hcm with h | h
      · subst h; simp [QueryNode.isNot] at hn
      · exact hpos ⟨c', h, hn, hcc⟩

/-! ## Iterator-factory machinery -/

theorem createSearchList_spec (env : SearchEnv) : ∀ (cs : List QueryNode)
    (regs : List Registration),
    (∀ c ∈ cs, ∀ regs0, createSearch env c regs0 =
      .ok (buildIter env c, regs0 ++ survivors env c)) →
    createSearchList env cs regs =
      .ok (buildIterList env cs, regs ++ survivorsList env cs) := by
  intro cs
  induction cs with
  | nil => intro regs _; simp [createSearchList, buildIterList, survivorsList]
  | cons c rest ih =>
    intro regs hall
    have h1 := hall c (List.mem_cons_self _ _) regs
    have h2 := ih (regs ++ survivors env c)
      (fun c' hc' => hall c' (List.mem_cons_of_mem _ hc'))
    simp only [createSearchList, h1, h2]
    rw [show buildIterList env (c :: rest) =
      (match buildIter env c with
       | none => buildIterList env rest
       | some i => i :: buildIterList env rest) from rfl]
    rw [show survivorsList env (c :: rest) =
      survivors env c ++ survivorsList env rest from rfl]
    cases buildIter env c <;> simp

/-- What `CreateSearch` computes on a factory-admissible tree: the pure
iterator denotation, and the registrations of the visited resolving term
leaves appended in traversal order. -/
theorem createSearch_spec : ∀ t : QueryNode, factoryOk t = true →
    ∀ (env : SearchEnv) (regs : List Registration),
      createSearch env t regs = .ok (buildIter env t, regs ++ survivors env t) := by
  apply QueryNode.strongInd (fun t => factoryOk t = true →
    ∀ env regs, createSearch env t regs = .ok (buildIter env t, regs ++ survivors env t))
  intro t ih hok env regs
  cases t with
  | term w c s =>
    rw [createSearch,
      show buildIter env (.term w c s) = (TermQueryNode.CreateSearch env c s []).1 from rfl]
    unfold TermQueryNode.CreateSearch
    by_cases hr : env.hasColumnIndexReader (env.columnIdByName c)
    · cases hl : env.lookup (env.columnIdByName c) s with
      | none => simp [hr, hl, survivors, termResolves]
      | some posting => simp [hr, hl, survivors, termResolves, termRegistration]
    · simp [Bool.not_eq_true] at hr
      simp [hr, survivors, termResolves]
  | atom w k p => simp [factoryOk] at hok
  | and w cs =>
    have hcs : ∀ c ∈ cs, factoryOk c = true := by
      rw [show factoryOk (.and w cs) = factoryOkList cs from rfl, factoryOkList_iff] at hok
      exact hok
    have hlist := createSearchList_spec env cs regs fun c hcm =>
      ih c (sizeOf_lt_of_mem_children (by simpa [QueryNode.children] using hcm)) (hcs c hcm) env
    rw [createSearch, hlist,
      show survivors env (.and w cs) = survivorsList env cs from rfl,
      show buildIter env (.and w cs) =
        (match buildIterList env cs with
         | [] => none
         | [x] => some x
         | l => some (.andIter l)) from rfl]
    cases hb : buildIterList env cs with
    | nil => rfl
    | cons x xs => cases xs <;> rfl
  | or w cs =>
    have hcs : ∀ c ∈ cs, factoryOk c = true := by
      rw [show factoryOk (.or w cs) = factoryOkList cs from rfl, factoryOkList_iff] at hok
      exact hok
    have hlist := createSearchList_spec env cs regs fun c hcm =>
      ih c (sizeOf_lt_of_mem_children (by simpa [QueryNode.children] using hcm)) (hcs c hcm) env
    rw [createSearch, hlist,
      show survivors env (.or w cs) = survivorsList env cs from rfl,
      show buildIter env (.or w cs) =
        (match buildIterList env cs with
         | [] => none
         | [x] => some x
         | l => some (.orIter l)) from rfl]
    cases hb : buildIterList env cs with
    | nil => rfl
    | cons x xs => cases xs <;> rfl
  | not w cs => simp [factoryOk] at hok
  | and_not w cs =>
    cases cs with
    | nil => simp [factoryOk] at hok
    | cons f r =>
      have hcs : ∀ c ∈ f :: r, factoryOk c = true := by
        rw [show factoryOk (.and_not w (f :: r)) = factoryOkList (f :: r) from rfl,
          factoryOkList_iff] at hok
        exact hok
      have hf := ih f (sizeOf_lt_of_mem_children
        (by simp [QueryNode.children])) (hcs f (List.mem_cons_self _ _)) env regs
      have hbuild : buildIter env (.and_not w (f :: r)) =
          (match buildIter env f with
           | none => none
           | some fi =>
             match buildIterList env r with
             | [] => some fi
             | l => some (.andNotIter (fi :: l))) := rfl
      have hsurv : survivors env (.and_not w (f :: r)) =
          (match buildIter env f with
           | none => survivors env f
           | some _ => survivors env f ++ survivorsList env r) := rfl
      cases hbf : buildIter env f with
      | none =>
        rw [hbf] at hf
        simp only [createSearch, hf, hbuild, hsurv, hbf]
      | some fi =>
        rw [hbf] at hf
        have hlist := createSearchList_spec env r (regs ++ survivors env f) fun c hcm =>
          ih c (sizeOf_lt_of_mem_children (by simp [QueryNode.children, hcm]))
            (hcs c (List.mem_cons_of_mem _ hcm)) env
        simp only [createSearch, hf, hlist, hbuild, hsurv, hbf]
        cases hbr : buildIterList env r <;> simp

theorem buildIterList_isEmpty (env : SearchEnv) : ∀ {cs : List QueryNode},
    (∀ c ∈ cs, (buildIter env c).isNone = relevantLeavesAbsent env c) →
    (buildIterList env cs).isEmpty = relevantLeavesAbsentList env cs := by
  intro cs
  induction cs with
  | nil => intro _; rfl
  | cons c rest ih =>
    intro hall
    have hc := hall c (List.mem_cons_self _ _)
    have ihr := ih fun c' hc' => hall c' (List.mem_cons_of_mem _ hc')
    rw [show buildIterList env (c :: rest) =
      (match buildIter env c with
       | none => buildIterList env rest
       | some i => i :: buildIterList env rest) from rfl,
      show relevantLeavesAbsentList env (c :: rest) =
        (relevantLeavesAbsent env c && relevantLeavesAbsentList env rest) from rfl]
    cases hbc : buildIter env c with
    | none =>
      rw [hbc] at hc
      simp at hc
      rw [hc]
      simp [ihr]
    | some i =>
      rw [hbc] at hc
      simp at hc
      rw [hc]
      simp

/-- On a factory-admissible tree, the factory's result is absent exactly when
every relevant term leaf (the whole subtree for `AND`/`OR`, the positive side
for `AND_NOT`) fails to resolve. -/
theorem buildIter_none : ∀ t : QueryNode, factoryOk t = true →
    ∀ env : SearchEnv, (buildIter env t).isNone = relevantLeavesAbsent env t := by
  apply QueryNode.strongInd (fun t => factoryOk t = true →
    ∀ env, (buildIter env t).isNone = relevantLeavesAbsent env t)
  intro t ih hok env
  cases t with
  | term w c s =>
    rw [show buildIter env (.term w c s) = (TermQueryNode.CreateSearch env c s []).1 from rfl,
      show relevantLeavesAbsent env (.term w c s) = !termResolves env c s from rfl]
    unfold TermQueryNode.CreateSearch
    by_cases hr : env.hasColumnIndexReader (env.columnIdByName c)
    · cases hl : env.lookup (env.columnIdByName c) s with
      | none => simp [hr, hl, termResolves]
      | some posting => simp [hr, hl, termResolves]
    · simp [Bool.not_eq_true] at hr
      simp [hr, termResolves]
  | atom w k p => simp [factoryOk] at hok
  | and w cs =>
    have hcs : ∀ c ∈ cs, factoryOk c = true := by
      rw [show factoryOk (.and w cs) = factoryOkList cs from rfl, factoryOkList_iff] at hok
      exact hok
    have hlist := buildIterList_isEmpty env fun c hcm =>
      ih c (sizeOf_lt_of_mem_children (by simpa [QueryNode.children] using hcm)) (hcs c hcm) env
    rw [show buildIter env (.and w cs) =
      (match buildIterList env cs with
       | [] => none
       | [x] => some x
       | l => some (.andIter l)) from rfl,
      show relevantLeavesAbsent env (.and w cs) = relevantLeavesAbsentList env cs from rfl,
      ← hlist]
    cases hb : buildIterList env cs with
    | nil => rfl
    | cons x xs => cases xs <;> rfl
  | or w cs =>
    have hcs : ∀ c ∈ cs, factoryOk c = true := by
      rw [show factoryOk (.or w cs) = factoryOkList cs from rfl, factoryOkList_iff] at hok
      exact hok
    have hlist := buildIterList_isEmpty env fun c hcm =>
      ih c (sizeOf_lt_of_mem_children (by simpa [QueryNode.children] using hcm)) (hcs c hcm) env
    rw [show buildIter env (.or w cs) =
      (match buildIterList env cs with
       | [] => none
       | [x] => some x
       | l => some (.orIter l)) from rfl,
      show relevantLeavesAbsent env (.or w cs) = relevantLeavesAbsentList env cs from rfl,
      ← hlist]
    cases hb : buildIterList env cs with
    | nil => rfl
    | cons x xs => cases xs <;> rfl
  | not w cs => simp [factoryOk] at hok
  | and_not w cs =>
    cases cs with
    | nil => simp [factoryOk] at hok
    | cons f r =>
      have hcs : ∀ c ∈ f :: r, factoryOk c = true := by
        rw [show factoryOk (.and_not w (f :: r)) = factoryOkList (f :: r) from rfl,
          factoryOkList_iff] at hok
        exact hok
      have hf := ih f (sizeOf_lt_of_mem_children
        (by simp [QueryNode.children])) (hcs f (List.mem_cons_self _ _)) env
      rw [show buildIter env (.and_not w (f :: r)) =
        (match buildIter env f with
         | none => none
         | some fi =>
           match buildIterList env r with
           | [] => some fi
           | l => some (.andNotIter (fi :: l))) from rfl,
        show relevantLeavesAbsent env (.and_not w (f :: r)) =
          relevantLeavesAbsent env f from rfl, ← hf]
      cases hbf : buildIter env f with
      | none => rfl
      | some fi => cases buildIterList env r <;> rfl

/-! ## Printer machinery -/

theorem printChildren_isSome : ∀ (cs : List QueryNode) (pre : String), cs ≠ [] →
    (∀ c ∈ cs, ∀ p f, (printTree c p f).isSome = true) →
    (printChildren cs pre).isSome = true := by
  intro cs
  induction cs with
  | nil => intro pre hne _; exact absurd rfl hne
  | cons c rest ih =>
    intro pre _ hall
    cases rest with
    | nil =>
      rw [printChildren]
      exact hall c (List.mem_cons_self _ _) pre true
    | cons c2 rest2 =>
      rw [printChildren]
      have h1 := hall c (List.mem_cons_self _ _) pre false
      obtain ⟨s1, hs1⟩ := Option.isSome_iff_exists.mp h1
      rw [hs1]
      have h2 := ih pre (by simp) fun c' hc' => hall c' (List.mem_cons_of_mem _ hc')
      obtain ⟨s2, hs2⟩ := Option.isSome_iff_exists.mp h2
      rw [hs2]
      rfl

theorem printTree_isSome : ∀ t : QueryNode, subtreeNonEmpty t = true →
    ∀ pre fin, (printTree t pre fin).isSome = true := by
  apply QueryNode.strongInd (fun t => subtreeNonEmpty t = true →
    ∀ pre fin, (printTree t pre fin).isSome = true)
  intro t ih hok pre fin
  cases t with
  | term w c s => rfl
  | atom w k p => rfl
  | and w cs =>
    rw [show subtreeNonEmpty (.and w cs) =
      (!cs.isEmpty && subtreeNonEmptyList cs) from rfl, Bool.and_eq_true,
      subtreeNonEmptyList_iff] at hok
    have hne : cs ≠ [] := by
      intro hh; subst hh; simp at hok
    have hch := printChildren_isSome cs (pre ++ (if fin then "    " else "│   ")) hne
      fun c hcm p f => ih c (sizeOf_lt_of_mem_children
        (by simpa [QueryNode.children] using hcm)) (hok.2 c hcm) p f
    obtain ⟨body, hbody⟩ := Option.isSome_iff_exists.mp hch
    rw [printTree, hbody]
    rfl
  | or w cs =>
    rw [show subtreeNonEmpty (.or w cs) =
      (!cs.isEmpty && subtreeNonEmptyList cs) from rfl, Bool.and_eq_true,
      subtreeNonEmptyList_iff] at hok
    have hne : cs ≠ [] := by
      intro hh; subst hh; simp at hok
    have hch := printChildren_isSome cs (pre ++ (if fin then "    " else "│   ")) hne
      fun c hcm p f => ih c (sizeOf_lt_of_mem_children
        (by simpa [QueryNode.children] using hcm)) (hok.2 c hcm) p f
    obtain ⟨body, hbody⟩ := Option.isSome_iff_exists.mp hch
    rw [printTree, hbody]
    rfl
  | not w cs =>
    rw [show subtreeNonEmpty (.not w cs) =
      (!cs.isEmpty && subtreeNonEmptyList cs) from rfl, Bool.and_eq_true,
      subtreeNonEmptyList_iff] at hok
    have hne : cs ≠ [] := by
      intro hh; subst hh; simp at hok
    have hch := printChildren_isSome cs (pre ++ (if fin then "    " else "│   ")) hne
      fun c hcm p f => ih c (sizeOf_lt_of_mem_children
        (by simpa [QueryNode.children] using hcm)) (hok.2 c hcm) p f
    obtain ⟨body, hbody⟩ := Option.isSome_iff_exists.mp hch
    rw [printTree, hbody]
    rfl
  | and_not w cs =>
    rw [show subtreeNonEmpty (.and_not w cs) =
      (!cs.isEmpty && subtreeNonEmptyList cs) from rfl, Bool.and_eq_true,
      subtreeNonEmptyList_iff] at hok
    have hne : cs ≠ [] := by
      intro hh; subst hh; simp at hok
    have hch := printChildren_isSome cs (pre ++ (if fin then "    " else "│   ")) hne
      fun c hcm p f => ih c (sizeOf_lt_of_mem_children
        (by simpa [QueryNode.children] using hcm)) (hok.2 c hcm) p f
    obtain ⟨body, hbody⟩ := Option.isSome_iff_exists.mp hch
    rw [printTree, hbody]
    rfl

/-! ## The claims -/

/-- Claim C1, counterexample: the §3 canonical-form table does not hold on
every accepted input.  The accepted query `OR(NOT(AND(a,b)), NOT(c))`
normalizes (by the De Morgan collapse of a singleton `NOT` grandchild) to
`NOT(AND(AND(a,b), c))`, whose inner `AND` has an `AND` child — forbidden by
the table's `AND` row and by the stated consequence that no `AND` contains an
`AND`. -/
theorem C1_counterexample :
    optimize (.or 1 [.not 1 [.and 1 [.term 1 "col" "a", .term 1 "col" "b"]],
        .not 1 [.term 1 "col" "c"]]) =
      .ok (.not 1 [.and 1 [.and 1 [.term 1 "col" "a", .term 1 "col" "b"],
        .term 1 "col" "c"]]) ∧
    specCanon (.not 1 [.and 1 [.and 1 [.term 1 "col" "a", .term 1 "col" "b"],
        .term 1 "col" "c"]]) = false :=
  ⟨rfl, rfl⟩

/-- Claim C1, amended: for every input tree the normalizer accepts, every
node of the returned tree satisfies the invariant the code actually
establishes: `AND` has arity ≥ 2 with children of kind
`TERM`/`OR`/`AND`/`AND_NOT`; `OR` has arity ≥ 2 with children of kind
`TERM`/`AND`/`AND_NOT`; `NOT` has arity ≥ 1 with children of kind
`TERM`/`AND`/`AND_NOT`; `AND_NOT` has arity ≥ 2 with first child of kind
`TERM`/`AND`/`OR`/`AND_NOT` and remaining children of kind
`TERM`/`AND`/`AND_NOT`; composite nodes carry weight 1.  In particular no
`OR` contains an `OR` and `NOT` occurs only at the root (never nested), but —
unlike the claim — an `AND` may contain an `AND`, and an `AND_NOT` may sit
directly under an `AND_NOT` or under a `NOT`. -/
theorem C1_canonical_amended : ∀ t u : QueryNode, optimize t = .ok u →
    canon u = true :=
  optimize_canon

/-- Witness for the amended claim C1 at the concrete accepted input
`AND(a, NOT(b))`. -/
theorem C1_canonical_amended_witness :
    canon (.and_not 1 [.term 1 "col" "a", .term 1 "col" "b"]) = true :=
  C1_canonical_amended (.and 1 [.term 1 "col" "a", .not 1 [.term 1 "col" "b"]])
    (.and_not 1 [.term 1 "col" "a", .term 1 "col" "b"]) rfl

/-- Claim C2: for every input tree the normalizer accepts and every
assignment of booleans to its leaves, the pre-normalization tree and the
returned tree evaluate to the same truth value under the ordinary boolean
interpretation (with `AND_NOT(a; b₁…bₙ)` read as `a ∧ ¬b₁ ∧ … ∧ ¬bₙ`). -/
theorem C2_semantic_preservation : ∀ t u : QueryNode, optimize t = .ok u →
    ∀ (σ : String → String → Bool) (τ : OpaqueKind → String → Bool),
      eval σ τ u = eval σ τ t :=
  optimize_eval

/-- Witness for claim C2 at the concrete accepted input `AND(a, NOT(b))` and
a concrete assignment. -/
theorem C2_semantic_preservation_witness :
    eval (fun _ s => s == "a") (fun _ _ => false)
        (.and_not 1 [.term 1 "col" "a", .term 1 "col" "b"]) =
      eval (fun _ s => s == "a") (fun _ _ => false)
        (.and 1 [.term 1 "col" "a", .not 1 [.term 1 "col" "b"]]) :=
  C2_semantic_preservation
    (.and 1 [.term 1 "col" "a", .not 1 [.term 1 "col" "b"]])
    (.and_not 1 [.term 1 "col" "a", .term 1 "col" "b"]) rfl
    (fun _ s => s == "a") (fun _ _ => false)

/-- Claim C3, counterexample: normalization is not idempotent.  The accepted
query `AND(a, NOT(b))` normalizes to `AND_NOT(a, b)`, but running the
normalizer again on that result raises the fatal `AND_NOT`-in-parser-output
classification error instead of returning the same tree. -/
theorem C3_counterexample :
    optimize (.and 1 [.term 1 "col" "a", .not 1 [.term 1 "col" "b"]]) =
      .ok (.and_not 1 [.term 1 "col" "a", .term 1 "col" "b"]) ∧
    optimize (.and_not 1 [.term 1 "col" "a", .term 1 "col" "b"]) =
      .error "OptimizeInPlaceInner: Unexpected case! AndNotQueryNode should not exist in parser output" :=
  ⟨rfl, rfl⟩

/-- Claim C3, amended: renormalization is the identity only on outputs free
of the two offending shapes — for every accepted input `t`, if `normalize(t)`
contains no `AND_NOT` node and no `AND` directly inside an `AND`, then
running the normalizer again succeeds and returns `normalize(t)` itself
(same kinds, child order and contents, fabricated nodes with weight 1.0);
whenever `normalize(t)` contains an `AND_NOT` the second run instead fails
with the classification error of the counterexample. -/
theorem C3_idempotent_amended : ∀ t u : QueryNode, optimize t = .ok u →
    andNotFree u = true → andAndFree u = true → optimize u = .ok u :=
  fun t u h h1 h2 => optimize_fixed_of_canon u (optimize_canon t u h) h1 h2

/-- Witness for the amended claim C3: `AND(a, AND(b, c))` normalizes to
`AND(a, b, c)`, which renormalizes to itself. -/
theorem C3_idempotent_amended_witness :
    optimize (.and 1 [.term 1 "col" "a", .term 1 "col" "b", .term 1 "col" "c"]) =
      .ok (.and 1 [.term 1 "col" "a", .term 1 "col" "b", .term 1 "col" "c"]) :=
  C3_idempotent_amended
    (.and 1 [.term 1 "col" "a", .and 1 [.term 1 "col" "b", .term 1 "col" "c"]])
    (.and 1 [.term 1 "col" "a", .term 1 "col" "b", .term 1 "col" "c"])
    rfl rfl rfl

/-- Claim C4, counterexample: the normalizer does not treat opaque leaves
like `TERM`.  A `PHRASE` leaf occurring as a child of an `AND` hits the
`default` arm of the child switch and aborts with the unexpected-case error
instead of being kept as an atom. -/
theorem C4_counterexample :
    optimize (.and 1 [.term 1 "col" "a", .atom 1 .PHRASE "p"]) =
      .error "OptimizeInPlaceInner: Unexpected case!" :=
  rfl

/-- Claim C4, amended: an opaque leaf passes through unchanged only as the
root of the whole query; as a child of any composite node (`NOT`, `AND`,
`OR`, `AND_NOT`-after-normalization) it is rejected by the `default` arm of
the child switch, so every accepted input has no opaque leaf below a
composite node. -/
theorem C4_opaque_amended :
    (∀ (w : Rat) (k : OpaqueKind) (p : String),
      optimize (.atom w k p) = .ok (.atom w k p)) ∧
    ∀ t u : QueryNode, optimize t = .ok u → atomChildFree t = true :=
  ⟨fun _ _ _ => rfl, optimize_atomChildFree⟩

/-- Witness for the amended claim C4: a root-level `PHRASE` leaf passes
through, and the accepted input `AND(a, b)` has no opaque leaf below a
composite. -/
theorem C4_opaque_amended_witness :
    optimize (.atom 1 .PHRASE "p") = .ok (.atom 1 .PHRASE "p") ∧
    atomChildFree (.and 1 [.term 1 "col" "a", .term 1 "col" "b"]) = true :=
  ⟨C4_opaque_amended.1 1 .PHRASE "p",
    C4_opaque_amended.2 (.and 1 [.term 1 "col" "a", .term 1 "col" "b"])
      (.and 1 [.term 1 "col" "a", .term 1 "col" "b"]) rfl⟩

/-- Claim C5: for every `AND` node with at least two normalized (canonical,
non-opaque) children, the rewrite partitions the children exactly as the
specification describes (`specAndPart`), and whenever both lists are
non-empty the result is an `AND_NOT` whose first child is `and_list`
collapsed (the sole element if of size 1, else a fresh weight-1 `AND` in
order) followed by the `not_list` elements in order. -/
theorem C5_and_rewrite_partition : ∀ cs : List QueryNode, 2 ≤ cs.length →
    (∀ c ∈ cs, canon c = true ∧ c.isOpaque = false) →
    (specAndPart cs).1 ≠ [] → (specAndPart cs).2 ≠ [] →
    AndQueryNode.OptimizeInPlaceInner cs =
      .ok (.and_not 1 (specCollapseAndList (specAndPart cs).1 :: (specAndPart cs).2)) := by
  intro cs hlen hall h1 h2
  have hcol := andCollect_eq_spec hall
  unfold AndQueryNode.OptimizeInPlaceInner
  rw [if_neg (by omega), hcol]
  have hae : (specAndPart cs).1.isEmpty = false := by
    cases hq : (specAndPart cs).1 with
    | nil => exact absurd hq h1
    | cons x xs => rfl
  have hne : (specAndPart cs).2.isEmpty = false := by
    cases hq : (specAndPart cs).2 with
    | nil => exact absurd hq h2
    | cons x xs => rfl
  simp only [hae, hne, Bool.false_eq_true, if_false]
  cases hq : (specAndPart cs).1 with
  | nil => exact absurd hq h1
  | cons x xs =>
    cases xs with
    | nil => rfl
    | cons y ys => rfl

/-- Witness for claim C5 at the concrete normalized child list
`[a, NOT(b)]`. -/
theorem C5_and_rewrite_partition_witness :
    AndQueryNode.OptimizeInPlaceInner
        [.term 1 "col" "a", .not 1 [.term 1 "col" "b"]] =
      .ok (.and_not 1 [.term 1 "col" "a", .term 1 "col" "b"]) :=
  C5_and_rewrite_partition [.term 1 "col" "a", .not 1 [.term 1 "col" "b"]]
    (by decide) (by decide) (List.cons_ne_nil _ _) (List.cons_ne_nil _ _)

/-- Claim C6: an `OR` node with at least two normalized (canonical,
non-opaque) children, at least one of which is a `NOT` and at least one of
which is not, is rejected with the unsupported-disjunction error (the
`UnrecoverableError` of query_node.cpp lines 229-232). -/
theorem C6_mixed_disjunction_rejected : ∀ cs : List QueryNode, 2 ≤ cs.length →
    (∀ c ∈ cs, canon c = true ∧ c.isOpaque = false) →
    (∃ c ∈ cs, c.isNot = true) → (∃ c ∈ cs, c.isNot = false) →
    OrQueryNode.OptimizeInPlaceInner cs =
      .error "Invalid query statement: OrQueryNode node should not have both or list and not list" := by
  intro cs hlen hall hex1 hex2
  obtain ⟨ol, nl, hok, hneg, hpos⟩ := orCollect_mixed fun c hcm => (hall c hcm).2
  have hnl : nl ≠ [] := hneg hex1
  have hol : ol ≠ [] := by
    obtain ⟨c, hcm, hn⟩ := hex2
    exact hpos ⟨c, hcm, hn, (hall c hcm).1⟩
  unfold OrQueryNode.OptimizeInPlaceInner
  rw [if_neg (by omega), hok]
  have hoe : ol.isEmpty = false := by
    cases ol with
    | nil => exact absurd rfl hol
    | cons x xs => rfl
  have hne : nl.isEmpty = false := by
    cases nl with
    | nil => exact absurd rfl hnl
    | cons x xs => rfl
  simp only [hoe, hne, Bool.false_eq_true, if_false]

/-- Witness for claim C6: the spec's example `OR(a, NOT(b))` is rejected
(stated on the normalized child list `[a, NOT(b)]`, which is what the
bottom-up driver hands to the `OR` rewrite). -/
theorem C6_mixed_disjunction_rejected_witness :
    OrQueryNode.OptimizeInPlaceInner
        [.term 1 "col" "a", .not 1 [.term 1 "col" "b"]] =
      .error "Invalid query statement: OrQueryNode node should not have both or list and not list" :=
  C6_mixed_disjunction_rejected [.term 1 "col" "a", .not 1 [.term 1 "col" "b"]]
    (by decide) (by decide)
    ⟨.not 1 [.term 1 "col" "b"],
      List.mem_cons_of_mem _ (List.mem_cons_self _ _), rfl⟩
    ⟨.term 1 "col" "a", List.mem_cons_self _ _, rfl⟩

/-- Claim C7: on every factory-admissible tree (no `NOT`, no opaque leaf,
`AND_NOT` nodes non-empty — which every §3-canonical `NOT`-free tree is),
`CreateSearch` succeeds and returns the absent iterator exactly when every
relevant `TERM` leaf resolves to absent: all leaves below an `AND` or `OR`,
and only the positive (first) side below an `AND_NOT`. -/
theorem C7_absent_iff : ∀ t : QueryNode, factoryOk t = true →
    ∀ (env : SearchEnv) (regs : List Registration),
      ∃ o regs2, createSearch env t regs = .ok (o, regs2) ∧
        (o = none ↔ relevantLeavesAbsent env t = true) := by
  intro t hok env regs
  refine ⟨buildIter env t, regs ++ survivors env t, createSearch_spec t hok env regs, ?_⟩
  rw [← buildIter_none t hok env]
  cases buildIter env t <;> simp

/-- Witness for claim C7 at a concrete tree and environment in which no term
resolves. -/
theorem C7_absent_iff_witness :
    ∃ o regs2,
      createSearch ⟨fun _ => 0, fun _ => true, fun _ _ => none⟩
          (.and 1 [.term 1 "col" "a", .term 1 "col" "b"]) [] = .ok (o, regs2) ∧
      (o = none ↔ relevantLeavesAbsent ⟨fun _ => 0, fun _ => true, fun _ _ => none⟩
        (.and 1 [.term 1 "col" "a", .term 1 "col" "b"]) = true) :=
  C7_absent_iff (.and 1 [.term 1 "col" "a", .term 1 "col" "b"]) rfl
    ⟨fun _ => 0, fun _ => true, fun _ _ => none⟩ []

/-- Claim C8, counterexample: the registration sequence is not always the
in-order traversal of all term leaves whose lookups succeed.  In
`AND_NOT(a, b)` with `a` unresolvable and `b` resolvable, the positive side
is absent, `CreateSearch` short-circuits, and nothing is registered — yet
the claim's surviving-leaf traversal contains the registration of `b`. -/
theorem C8_counterexample :
    createSearch ⟨fun _ => 0, fun _ => true, fun _ s => if s == "b" then some 7 else none⟩
        (.and_not 1 [.term 1 "col" "a", .term 1 "col" "b"]) [] = .ok (none, []) ∧
    claimSurvivors ⟨fun _ => 0, fun _ => true, fun _ s => if s == "b" then some 7 else none⟩
        (.and_not 1 [.term 1 "col" "a", .term 1 "col" "b"]) =
      [(.termDoc 7 0, 0)] ∧
    ([] : List Registration) ≠ [(.termDoc 7 0, 0)] :=
  ⟨rfl, rfl, by simp⟩

/-- Claim C8, amended: on every factory-admissible tree the registrations
`CreateSearch` appends to the scorer are exactly `survivors`: the
left-to-right in-order traversal of the *visited* resolving `TERM` leaves,
where the subtrahend children of an `AND_NOT` whose positive side builds to
absent are never visited and hence never registered. -/
theorem C8_registration_order_amended : ∀ t : QueryNode, factoryOk t = true →
    ∀ (env : SearchEnv) (regs : List Registration),
      ∃ o, createSearch env t regs = .ok (o, regs ++ survivors env t) :=
  fun t hok env regs => ⟨buildIter env t, createSearch_spec t hok env regs⟩

/-- Witness for the amended claim C8 at a concrete tree and environment. -/
theorem C8_registration_order_amended_witness :
    ∃ o, createSearch ⟨fun _ => 0, fun _ => true, fun _ s => if s == "b" then some 7 else none⟩
        (.and 1 [.term 1 "col" "a", .term 1 "col" "b"]) [] =
      .ok (o, [] ++ survivors
        ⟨fun _ => 0, fun _ => true, fun _ s => if s == "b" then some 7 else none⟩
        (.and 1 [.term 1 "col" "a", .term 1 "col" "b"])) :=
  C8_registration_order_amended (.and 1 [.term 1 "col" "a", .term 1 "col" "b"]) rfl
    ⟨fun _ => 0, fun _ => true, fun _ s => if s == "b" then some 7 else none⟩ []

/-- Claim C9: if the first (positive) child of an `AND_NOT` node builds to
an absent iterator, `AndNotQueryNode::CreateSearch` returns absent
immediately, and the scorer's registration list is left exactly as the
positive child's construction left it — no subtrahend is visited or
registered. -/
theorem C9_and_not_short_circuit : ∀ (env : SearchEnv) (w : Rat)
    (f : QueryNode) (r : List QueryNode) (regs regs1 : List Registration),
    createSearch env f regs = .ok (none, regs1) →
    createSearch env (.and_not w (f :: r)) regs = .ok (none, regs1) := by
  intro env w f r regs regs1 h
  simp only [createSearch, h]

/-- Witness for claim C9 at a concrete `AND_NOT` whose positive side fails
to resolve while its subtrahend would resolve. -/
theorem C9_and_not_short_circuit_witness :
    createSearch ⟨fun _ => 0, fun _ => true, fun _ s => if s == "b" then some 7 else none⟩
        (.and_not 1 [.term 1 "col" "a", .term 1 "col" "b"]) [] = .ok (none, []) :=
  C9_and_not_short_circuit
    ⟨fun _ => 0, fun _ => true, fun _ s => if s == "b" then some 7 else none⟩
    1 (.term 1 "col" "a") [.term 1 "col" "b"] [] [] rfl

/-- Claim C10: `MultiQueryNode::PrintTree` accesses `children_.back()`
unconditionally after the loop over all but the last child, so (given that
every proper descendant composite has at least one child) the rendering is
well defined iff the composite node itself has at least one child; with no
children the `children_.back()` access is out of bounds, and with at least
one child every access is in bounds. -/
theorem C10_print_tree_domain : ∀ (t : QueryNode) (pre : String) (fin : Bool),
    t.isComposite = true → subtreeNonEmptyList t.children = true →
    ((printTree t pre fin).isSome = true ↔ t.children ≠ []) := by
  intro t pre fin hcomp hsub
  cases t with
  | term w c s => simp [QueryNode.isComposite] at hcomp
  | atom w k p => simp [QueryNode.isComposite] at hcomp
  | and w cs =>
    constructor
    · intro hsome hnil
      rw [show (QueryNode.and w cs).children = cs from rfl] at hnil
      subst hnil
      cases hsome
    · intro hne
      have hcs : cs ≠ [] := by
        rw [show (QueryNode.and w cs).children = cs from rfl] at hne
        exact hne
      refine printTree_isSome (.and w cs) ?_ pre fin
      rw [show subtreeNonEmpty (.and w cs) =
        (!cs.isEmpty && subtreeNonEmptyList cs) from rfl]
      have : cs.isEmpty = false := by
        cases cs with
        | nil => exact absurd rfl hcs
        | cons x xs => rfl
      have hsub2 : subtreeNonEmptyList cs = true := hsub
      rw [this, hsub2]
      rfl
  | or w cs =>
    constructor
    · intro hsome hnil
      rw [show (QueryNode.or w cs).children = cs from rfl] at hnil
      subst hnil
      cases hsome
    · intro hne
      have hcs : cs ≠ [] := by
        rw [show (QueryNode.or w cs).children = cs from rfl] at hne
        exact hne
      refine printTree_isSome (.or w cs) ?_ pre fin
      rw [show subtreeNonEmpty (.or w cs) =
        (!cs.isEmpty && subtreeNonEmptyList cs) from rfl]
      have : cs.isEmpty = false := by
        cases cs with
        | nil => exact absurd rfl hcs
        | cons x xs => rfl
      have hsub2 : subtreeNonEmptyList cs = true := hsub
      rw [this, hsub2]
      rfl
  | not w cs =>
    constructor
    · intro hsome hnil
      rw [show (QueryNode.not w cs).children = cs from rfl] at hnil
      subst hnil
      cases hsome
    · intro hne
      have hcs : cs ≠ [] := by
        rw [show (QueryNode.not w cs).children = cs from rfl] at hne
        exact hne
      refine printTree_isSome (.not w cs) ?_ pre fin
      rw [show subtreeNonEmpty (.not w cs) =
        (!cs.isEmpty && subtreeNonEmptyList cs) from rfl]
      have : cs.isEmpty = false := by
        cases cs with
        | nil => exact absurd rfl hcs
        | cons x xs => rfl
      have hsub2 : subtreeNonEmptyList cs = true := hsub
      rw [this, hsub2]
      rfl
  | and_not w cs =>
    constructor
    · intro hsome hnil
      rw [show (QueryNode.and_not w cs).children = cs from rfl] at hnil
      subst hnil
      cases hsome
    · intro hne
      have hcs : cs ≠ [] := by
        rw [show (QueryNode.and_not w cs).children = cs from rfl] at hne
        exact hne
      refine printTree_isSome (.and_not w cs) ?_ pre fin
      rw [show subtreeNonEmpty (.and_not w cs) =
        (!cs.isEmpty && subtreeNonEmptyList cs) from rfl]
      have : cs.isEmpty = false := by
        cases cs with
        | nil => exact absurd rfl hcs
        | cons x xs => rfl
      have hsub2 : subtreeNonEmptyList cs = true := hsub
      rw [this, hsub2]
      rfl

/-- Witness for claim C10 at a concrete one-child `AND` node. -/
theorem C10_print_tree_domain_witness :
    (printTree (.and 1 [.term 1 "col" "a"]) "" true).isSome = true ↔
      (QueryNode.and 1 [.term 1 "col" "a"]).children ≠ [] :=
  C10_print_tree_domain (.and 1 [.term 1 "col" "a"]) "" true rfl rfl

end Infinity
